import Mathlib

/-!
Verification of the container-os manifest reconciliation and drift-detection
engine against its specification.

The Python sources under `scripts/` are shallowly embedded:
- `update_manifest_versions.py`: `fetch_latest_tag`, `fetch_all_package_versions`
  and `update_manifest` become pure functions over an `Env` oracle that stands
  for the Docker Hub tag listing and the ephemeral container runs.
- `detect_changes.py`: `check_for_changes` becomes a pure function of the two
  working documents and the two (optional) baseline documents.
- `tag_aliases.py`: the retry loop of `retag` becomes a recursion over the
  attempt list, returning the succeeding attempt and the accumulated wait.

Python dicts are modelled as association lists with Python's insertion-order
semantics: overwriting keeps the key's position, new keys are appended.
-/

set_option linter.unusedVariables false
set_option synthInstance.maxSize 4000

namespace ContainerOS

/-! ## Association lists with Python `dict` semantics -/

variable {α β : Type}

/-- `d.get(k)`: first binding of `k`, if any. -/
def dictGet [DecidableEq α] (k : α) : List (α × β) → Option β
  | [] => none
  | (k', v) :: rest => if k' = k then some v else dictGet k rest

/-- `d[k] = v`: overwrite in place, append new keys at the end. -/
def dictInsert [DecidableEq α] (k : α) (v : β) : List (α × β) → List (α × β)
  | [] => [(k, v)]
  | (k', v') :: rest => if k' = k then (k, v) :: rest else (k', v') :: dictInsert k v rest

/-- `d.setdefault(k, dflt)` followed by an in-place transformation `f` of `d[k]`. -/
def dictUpdate [DecidableEq α] (k : α) (dflt : β) (f : β → β) : List (α × β) → List (α × β)
  | [] => [(k, f dflt)]
  | (k', v) :: rest => if k' = k then (k', f v) :: rest else (k', v) :: dictUpdate k dflt f rest

@[simp] theorem dictGet_nil [DecidableEq α] (k : α) : dictGet k ([] : List (α × β)) = none := rfl

theorem dictGet_dictInsert_self [DecidableEq α] (k : α) (v : β) (l : List (α × β)) :
    dictGet k (dictInsert k v l) = some v := by
  induction l with
  | nil => simp [dictGet, dictInsert]
  | cons hd tl ih =>
    obtain ⟨k', v'⟩ := hd
    by_cases h : k' = k <;> simp [dictGet, dictInsert, h, ih]

theorem dictGet_dictInsert_ne [DecidableEq α] {k k' : α} (hne : k' ≠ k) (v : β)
    (l : List (α × β)) : dictGet k' (dictInsert k v l) = dictGet k' l := by
  induction l with
  | nil => simp [dictGet, dictInsert, Ne.symm hne]
  | cons hd tl ih =>
    obtain ⟨k₀, v₀⟩ := hd
    by_cases h : k₀ = k
    · subst h
      simp [dictGet, dictInsert, Ne.symm hne]
    · by_cases h' : k₀ = k' <;> simp [dictGet, dictInsert, h, h', hne, ih]

theorem dictGet_dictUpdate_self [DecidableEq α] (k : α) (dflt : β) (f : β → β)
    (l : List (α × β)) :
    dictGet k (dictUpdate k dflt f l) = some (f ((dictGet k l).getD dflt)) := by
  induction l with
  | nil => simp [dictGet, dictUpdate]
  | cons hd tl ih =>
    obtain ⟨k', v'⟩ := hd
    by_cases h : k' = k <;> simp [dictGet, dictUpdate, h, ih]

theorem dictGet_dictUpdate_ne [DecidableEq α] {k k' : α} (hne : k' ≠ k) (dflt : β) (f : β → β)
    (l : List (α × β)) : dictGet k' (dictUpdate k dflt f l) = dictGet k' l := by
  induction l with
  | nil => simp [dictGet, dictUpdate, Ne.symm hne]
  | cons hd tl ih =>
    obtain ⟨k₀, v₀⟩ := hd
    by_cases h : k₀ = k
    · subst h
      simp [dictGet, dictUpdate, Ne.symm hne]
    · by_cases h' : k₀ = k' <;> simp [dictGet, dictUpdate, h, h', hne, ih]

theorem dictUpdate_eq_self [DecidableEq α] {k : α} {v : β} {l : List (α × β)}
    (hget : dictGet k l = some v) (dflt : β) {f : β → β} (hf : f v = v) :
    dictUpdate k dflt f l = l := by
  induction l with
  | nil => simp [dictGet] at hget
  | cons hd tl ih =>
    obtain ⟨k', v'⟩ := hd
    by_cases h : k' = k
    · simp [dictGet, h] at hget
      simp [dictUpdate, h, hget, hf]
    · simp [dictGet, h] at hget
      simp [dictUpdate, h, ih hget]

theorem dictGet_eq_none_iff [DecidableEq α] (k : α) (l : List (α × β)) :
    dictGet k l = none ↔ k ∉ l.map Prod.fst := by
  induction l with
  | nil => simp [dictGet]
  | cons hd tl ih =>
    obtain ⟨k', v'⟩ := hd
    by_cases h : k' = k
    · subst h
      simp [dictGet]
    · simp [dictGet, h, ih, Ne.symm h]

theorem mem_fst_dictInsert [DecidableEq α] (a k : α) (v : β) (l : List (α × β)) :
    a ∈ (dictInsert k v l).map Prod.fst ↔ a ∈ l.map Prod.fst ∨ a = k := by
  induction l with
  | nil =>
    simp [dictInsert]
  | cons hd tl ih =>
    obtain ⟨k', v'⟩ := hd
    by_cases h : k' = k
    · subst h
      have hrw : dictInsert k' v ((k', v') :: tl) = (k', v) :: tl := by
        simp [dictInsert]
      rw [hrw]
      simp only [List.map_cons, List.mem_cons]
      tauto
    · have hrw : dictInsert k v ((k', v') :: tl) = (k', v') :: dictInsert k v tl := by
        simp [dictInsert, h]
      rw [hrw]
      simp only [List.map_cons, List.mem_cons, ih]
      tauto

theorem nodup_fst_dictInsert [DecidableEq α] (k : α) (v : β) (l : List (α × β))
    (h : (l.map Prod.fst).Nodup) : ((dictInsert k v l).map Prod.fst).Nodup := by
  induction l with
  | nil => simp [dictInsert]
  | cons hd tl ih =>
    obtain ⟨k', v'⟩ := hd
    simp only [List.map_cons, List.nodup_cons] at h
    by_cases hk : k' = k
    · subst hk
      have hrw : dictInsert k' v ((k', v') :: tl) = (k', v) :: tl := by
        simp [dictInsert]
      rw [hrw]
      simp only [List.map_cons, List.nodup_cons]
      exact h
    · have hrw : dictInsert k v ((k', v') :: tl) = (k', v') :: dictInsert k v tl := by
        simp [dictInsert, hk]
      rw [hrw]
      simp only [List.map_cons, List.nodup_cons]
      refine ⟨?_, ih h.2⟩
      rw [mem_fst_dictInsert]
      rintro (hmem | rfl)
      · exact h.1 hmem
      · exact hk rfl

/-! ## String utilities

Structural (kernel-reducible) replacements for the string operations the
Python code uses: `str.split` on a single-character separator, `str.strip`,
prefix test, digit parsing and joining.  All splits in the embedded scripts
are on the single characters `.` , `=` and the newline. -/

def splitCharGo (sep : Char) : List Char → List Char → List String
  | [], acc => [String.mk acc.reverse]
  | c :: cs, acc =>
    if c = sep then String.mk acc.reverse :: splitCharGo sep cs []
    else splitCharGo sep cs (c :: acc)

/-- `s.split(sep)` for a one-character separator (also `s.splitOn` semantics). -/
def splitChar (sep : Char) (s : String) : List String := splitCharGo sep s.toList []

/-- `s.startswith(p)`. -/
def strStartsWith (s p : String) : Bool := p.toList.isPrefixOf s.toList

/-- `s.strip()`. -/
def trimStr (s : String) : String :=
  String.mk (((s.toList.dropWhile Char.isWhitespace).reverse.dropWhile Char.isWhitespace).reverse)

/-- Join a list of strings with a separator (`sep.join(l)`). -/
def joinWith (sep : String) : List String → String
  | [] => ""
  | [s] => s
  | s :: rest => s ++ sep ++ joinWith sep rest

/-- `int(s)` on a string of decimal digits. -/
def digitsToNat (l : List Char) : Nat := l.foldl (fun n c => n * 10 + (c.toNat - 48)) 0

def parseNumeral (s : String) : Nat := digitsToNat s.toList

/-! ## Version pattern and ordering

`VERSION_PATTERN = re.compile(r"^(?:\d+)(?:\.\d+)*$")` and
`packaging.version.Version` restricted to such purely numeric dotted tags:
the release components compare numerically, with trailing zeros insignificant
(`3.19 == 3.19.0`), and `str(Version(t))` renders each component without
leading zeros. -/

def isNumeral (s : String) : Bool := !s.toList.isEmpty && s.toList.all Char.isDigit

/-- `VERSION_PATTERN.match(tag)`: a nonempty dotted sequence of digit groups. -/
def versionPatternMatch (s : String) : Bool := (splitChar '.' s).all isNumeral

/-- The release tuple of `packaging.version.Version` on a purely numeric tag. -/
def parseVersion (s : String) : List Nat := (splitChar '.' s).map parseNumeral

/-- `str(Version(t))` for a purely numeric tag: canonical dotted rendering. -/
def renderVersion (l : List Nat) : String := joinWith "." (l.map toString)

def allZero : List Nat → Bool
  | [] => true
  | x :: xs => if x = 0 then allZero xs else false

/-- Comparison of release tuples, padding the shorter with zeros. -/
def verCmp : List Nat → List Nat → Ordering
  | [], b => if allZero b then .eq else .lt
  | a :: as, [] => if a = 0 then verCmp as [] else .gt
  | a :: as, b :: bs =>
    if a < b then .lt else if b < a then .gt else verCmp as bs

def verLt (a b : List Nat) : Bool :=
  match verCmp a b with
  | .lt => true
  | _ => false

/-- `max(Version(t) for t in c :: rest)`: Python's `max` keeps the first
maximal element, replacing the current one only on a strictly greater item. -/
def maxTag (c : String) (rest : List String) : String :=
  rest.foldl (fun m t => if verLt (parseVersion m) (parseVersion t) then t else m) c

theorem verCmp_self (a : List Nat) : verCmp a a = .eq := by
  induction a with
  | nil => rfl
  | cons x xs ih => simp [verCmp, ih]

theorem verLt_self (a : List Nat) : verLt a a = false := by
  simp [verLt, verCmp_self]

theorem verCmp_nil_right (b : List Nat) :
    verCmp b [] = if allZero b then .eq else .gt := by
  induction b with
  | nil => rfl
  | cons x xs ih =>
    by_cases h : x = 0 <;> simp [verCmp, allZero, h, ih]

theorem verCmp_nil_right_ne_lt (b : List Nat) : verCmp b [] ≠ .lt := by
  rw [verCmp_nil_right]
  by_cases h : allZero b <;> simp [h]

theorem verCmp_ne_lt_of_allZero : ∀ (a b : List Nat), allZero b = true → verCmp a b ≠ .lt := by
  intro a
  induction a with
  | nil =>
    intro b hb
    simp [verCmp, hb]
  | cons x xs ih =>
    intro b hb
    match b with
    | [] => exact verCmp_nil_right_ne_lt (x :: xs)
    | y :: ys =>
      simp only [allZero] at hb
      by_cases hy : y = 0
      · rw [if_pos hy] at hb
        subst hy
        simp only [verCmp, Nat.not_lt_zero, if_false]
        by_cases hx : 0 < x
        · simp [hx]
        · have hx0 : x = 0 := by omega
          simp [hx, ih ys hb]
      · rw [if_neg hy] at hb
        cases hb

theorem allZero_of_verCmp_eq : ∀ (a b : List Nat),
    verCmp a b = .eq → allZero b = true → allZero a = true := by
  intro a
  induction a with
  | nil => intro b _ _; rfl
  | cons x xs ih =>
    intro b h hb
    match b with
    | [] =>
      rw [verCmp_nil_right] at h
      by_cases hz : allZero (x :: xs)
      · exact hz
      · rw [if_neg hz] at h; cases h
    | y :: ys =>
      simp only [verCmp] at h
      simp only [allZero] at hb ⊢
      by_cases hy : y = 0
      · rw [if_pos hy] at hb
        subst hy
        by_cases hx : x = 0
        · subst hx
          simp only [Nat.lt_irrefl, if_false] at h
          rw [if_pos rfl]
          exact ih ys h hb
        · have : 0 < x := by omega
          simp [this] at h
      · rw [if_neg hy] at hb
        cases hb

theorem verCmp_trans : ∀ (b a c : List Nat),
    verCmp a b = .lt → verCmp b c = .lt → verCmp a c = .lt := by
  intro b
  induction b with
  | nil =>
    intro a c h1 _
    exact absurd h1 (verCmp_nil_right_ne_lt a)
  | cons y ys ih =>
    intro a c h1 h2
    match a, c with
    | a, [] => exact absurd h2 (verCmp_nil_right_ne_lt (y :: ys))
    | [], z :: zs =>
      simp only [verCmp] at h1 ⊢
      by_cases hc : allZero (z :: zs)
      · exfalso
        simp only [allZero] at hc
        by_cases hz : z = 0
        · rw [if_pos hz] at hc
          subst hz
          simp only [verCmp, Nat.not_lt_zero, if_false] at h2
          by_cases hy : 0 < y
          · simp [hy] at h2
          · have hy0 : y = 0 := by omega
            subst hy0
            simp only [Nat.lt_irrefl, if_false] at h2
            by_cases hys : allZero ys
            · rw [if_pos (by simpa [allZero] using hys)] at h1
              cases h1
            · have h1' : verCmp ([] : List Nat) ys = .lt := by
                simp [verCmp, hys]
              have := ih [] zs h1' h2
              simp only [verCmp] at this
              rw [if_pos hc] at this
              cases this
        · rw [if_neg hz] at hc
          cases hc
      · rw [if_neg hc]
    | x :: as, z :: zs =>
      simp only [verCmp] at h1 h2 ⊢
      by_cases hxy : x < y <;> by_cases hyz : y < z
      · rw [if_pos (show x < z by omega)]
      · by_cases hzy : z < y
        · rw [if_neg hyz, if_pos hzy] at h2
          cases h2
        · have hyz' : y = z := by omega
          subst hyz'
          rw [if_pos hxy]
      · by_cases hyx : y < x
        · rw [if_neg hxy, if_pos hyx] at h1
          cases h1
        · have hxy' : x = y := by omega
          subst hxy'
          rw [if_pos hyz]
      · by_cases hyx : y < x
        · rw [if_neg hxy, if_pos hyx] at h1
          cases h1
        · by_cases hzy : z < y
          · rw [if_neg hyz, if_pos hzy] at h2
            cases h2
          · rw [if_neg hxy, if_neg hyx] at h1
            rw [if_neg hyz, if_neg hzy] at h2
            rw [if_neg (show ¬ x < z by omega), if_neg (show ¬ z < x by omega)]
            exact ih as zs h1 h2

theorem verCmp_lt_of_lt_of_eq : ∀ (b a c : List Nat),
    verCmp a b = .lt → verCmp b c = .eq → verCmp a c = .lt := by
  intro b
  induction b with
  | nil =>
    intro a c h1 _
    exact absurd h1 (verCmp_nil_right_ne_lt a)
  | cons y ys ih =>
    intro a c h1 h2
    match c with
    | [] =>
      rw [verCmp_nil_right] at h2
      by_cases hz : allZero (y :: ys)
      · exact absurd h1 (verCmp_ne_lt_of_allZero a (y :: ys) hz)
      · rw [if_neg hz] at h2
        cases h2
    | z :: zs =>
      simp only [verCmp] at h2
      by_cases hyz : y < z
      · rw [if_pos hyz] at h2; cases h2
      · by_cases hzy : z < y
        · rw [if_neg hyz, if_pos hzy] at h2; cases h2
        · have hyz' : y = z := by omega
          subst hyz'
          rw [if_neg hyz, if_neg hzy] at h2
          match a with
          | [] =>
            simp only [verCmp] at h1 ⊢
            by_cases hall : allZero (y :: ys)
            · rw [if_pos hall] at h1; cases h1
            · by_cases hallc : allZero (y :: zs)
              · exfalso
                apply hall
                simp only [allZero] at hallc ⊢
                by_cases hy : y = 0
                · rw [if_pos hy] at hallc ⊢
                  exact allZero_of_verCmp_eq ys zs h2 hallc
                · rw [if_neg hy] at hallc; cases hallc
              · rw [if_neg hallc]
          | x :: as =>
            simp only [verCmp] at h1 ⊢
            by_cases hxy : x < y
            · rw [if_pos hxy]
            · by_cases hyx : y < x
              · rw [if_neg hxy, if_pos hyx] at h1; cases h1
              · rw [if_neg hxy, if_neg hyx] at h1 ⊢
                exact ih as zs h1 h2

theorem verLt_trans {a b c : List Nat} (h1 : verLt a b = true) (h2 : verLt b c = true) :
    verLt a c = true := by
  simp only [verLt] at h1 h2 ⊢
  cases hab : verCmp a b <;> rw [hab] at h1 <;> try cases h1
  cases hbc : verCmp b c <;> rw [hbc] at h2 <;> try cases h2
  rw [verCmp_trans b a c hab hbc]

theorem verCmp_eq_symm : ∀ (a b : List Nat), verCmp a b = .eq → verCmp b a = .eq := by
  intro a
  induction a with
  | nil =>
    intro b h
    simp only [verCmp] at h
    by_cases hb : allZero b
    · rw [verCmp_nil_right, if_pos hb]
    · rw [if_neg hb] at h; cases h
  | cons x xs ih =>
    intro b h
    match b with
    | [] =>
      rw [verCmp_nil_right] at h
      by_cases hz : allZero (x :: xs)
      · simp [verCmp, hz]
      · rw [if_neg hz] at h; cases h
    | y :: ys =>
      simp only [verCmp] at h ⊢
      by_cases hxy : x < y
      · rw [if_pos hxy] at h; cases h
      · by_cases hyx : y < x
        · rw [if_neg hxy, if_pos hyx] at h; cases h
        · rw [if_neg hxy, if_neg hyx] at h
          rw [if_neg hyx, if_neg hxy]
          exact ih ys h

theorem verCmp_lt_of_gt : ∀ (a b : List Nat), verCmp a b = .gt → verCmp b a = .lt := by
  intro a
  induction a with
  | nil =>
    intro b h
    simp only [verCmp] at h
    by_cases hb : allZero b
    · rw [if_pos hb] at h; cases h
    · rw [if_neg hb] at h; cases h
  | cons x xs ih =>
    intro b h
    match b with
    | [] =>
      rw [verCmp_nil_right] at h
      by_cases hz : allZero (x :: xs)
      · rw [if_pos hz] at h; cases h
      · simp [verCmp, hz]
    | y :: ys =>
      simp only [verCmp] at h ⊢
      by_cases hxy : x < y
      · rw [if_pos hxy] at h; cases h
      · by_cases hyx : y < x
        · rw [if_pos hyx]
        · rw [if_neg hxy, if_neg hyx] at h
          rw [if_neg hyx, if_neg hxy]
          exact ih ys h

theorem maxTag_cons (c t : String) (ts : List String) :
    maxTag c (t :: ts) =
      maxTag (if verLt (parseVersion c) (parseVersion t) then t else c) ts := rfl

theorem verLt_eq_true_iff (a b : List Nat) : verLt a b = true ↔ verCmp a b = .lt := by
  simp only [verLt]
  cases h : verCmp a b <;> simp

theorem verLt_eq_false_iff (a b : List Nat) : verLt a b = false ↔ verCmp a b ≠ .lt := by
  simp only [verLt]
  cases h : verCmp a b <;> simp

theorem maxTag_mem (c : String) (rest : List String) : maxTag c rest ∈ c :: rest := by
  induction rest generalizing c with
  | nil => simp [maxTag]
  | cons t ts ih =>
    rw [maxTag_cons]
    by_cases h : verLt (parseVersion c) (parseVersion t) = true
    · rw [if_pos h]
      exact List.mem_cons_of_mem c (ih t)
    · rw [if_neg h]
      rcases List.mem_cons.1 (ih c) with h1 | h1
      · rw [h1]
        exact List.mem_cons_self c (t :: ts)
      · exact List.mem_cons_of_mem c (List.mem_cons_of_mem t h1)

theorem maxTag_not_lt (c : String) (rest : List String) :
    ∀ x ∈ c :: rest, verLt (parseVersion (maxTag c rest)) (parseVersion x) = false := by
  induction rest generalizing c with
  | nil =>
    intro x hx
    rcases List.mem_cons.1 hx with h1 | h1
    · rw [h1]
      simp [maxTag, verLt_self]
    · cases h1
  | cons t ts ih =>
    intro x hx
    rw [maxTag_cons]
    by_cases h : verLt (parseVersion c) (parseVersion t) = true
    · rw [if_pos h]
      rcases List.mem_cons.1 hx with h1 | h1
      · -- x = c : the running maximum is not below t, and c is strictly below t
        rw [h1]
        cases hv : verLt (parseVersion (maxTag t ts)) (parseVersion c)
        · rfl
        · exfalso
          have htop := ih t t (List.mem_cons_self t ts)
          rw [verLt_trans hv h] at htop
          cases htop
      · exact ih t x h1
    · have h' : verCmp (parseVersion c) (parseVersion t) ≠ .lt := by
        rw [← verLt_eq_false_iff]
        cases hv : verLt (parseVersion c) (parseVersion t)
        · rfl
        · exact absurd hv h
      rw [if_neg h]
      rcases List.mem_cons.1 hx with h1 | h1
      · rw [h1]
        exact ih _ _ (List.mem_cons_self _ _)
      · rcases List.mem_cons.1 h1 with h2 | h2
        · -- x = t : the running maximum is not below c, and t is not above c
          rw [h2]
          cases hv : verLt (parseVersion (maxTag c ts)) (parseVersion t)
          · rfl
          · exfalso
            have hmc := ih c c (List.mem_cons_self c ts)
            rw [verLt_eq_true_iff] at hv
            rw [verLt_eq_false_iff] at hmc
            cases hct : verCmp (parseVersion c) (parseVersion t)
            · exact h' hct
            · exact hmc (verCmp_lt_of_lt_of_eq (parseVersion t)
                (parseVersion (maxTag c ts)) (parseVersion c) hv (verCmp_eq_symm _ _ hct))
            · exact hmc (verCmp_trans (parseVersion t)
                (parseVersion (maxTag c ts)) (parseVersion c) hv (verCmp_lt_of_gt _ _ hct))
        · exact ih _ _ (List.mem_cons_of_mem _ h2)

/-! ## Data model (`manifests/targets.json`, `manifests/package_versions.json`) -/

/-- A `channels` entry: `{os, version, engine}`. -/
structure Channel where
  os : String
  version : String
  engine : String
  deriving DecidableEq, Repr

/-- One `targets[os][version]` record: `base`, optional `alias_patch`, and the
`packages` buckets (bucket name → ordered package list). -/
structure TargetMeta where
  base : String
  alias_patch : Option String
  packages : List (String × List String)
  deriving DecidableEq, Repr

abbrev Targets := List (String × List (String × TargetMeta))

/-- The targets document. A missing `docker_compose_version` key is the empty
string (Python `get(..., "")`); a missing `metadata` dict is the empty list. -/
structure Manifest where
  version : String
  docker_compose_version : String
  targets : Targets
  channels : List (String × Channel)
  metadata : List (String × String)
  deriving DecidableEq, Repr

/-- `package_versions[os][version][bucket][package] = version`. -/
abbrev BucketMap := List (String × String)
abbrev SectionMap := List (String × BucketMap)
abbrev OsVerMap := List (String × SectionMap)
abbrev PkgVersions := List (String × OsVerMap)

/-- The external world: the Docker Hub tag listing (all result names across the
paginated `GET .../tags` responses, or a transport failure), and the single
batched container run of `fetch_all_package_versions` (the stripped stdout of
`run_container`, or an `UpdateError`).  The shell script built from the package
list (lines 112-138 of `update_manifest_versions.py`) is folded into the
oracle, which is keyed by the same data `(os_name, version, packages)`. -/
structure Env where
  listTags : String → String → Except String (List String)
  runQuery : String → String → List String → Except String String

def DOCKER_HUB_REPOS : List (String × String) := [("alpine", "library/alpine")]

/-- `fetch_latest_tag(os_name, prefix)`.  The `try/except` around
`max(Version(tag) ...)` is unreachable for tags matching `VERSION_PATTERN`
(such tags always parse), so it is not modelled. -/
def fetch_latest_tag (env : Env) (os_name pre : String) : Except String String :=
  let repo := (dictGet os_name DOCKER_HUB_REPOS).getD ""
  if repo = "" then .ok pre
  else
    match env.listTags repo pre with
    | .error e => .error e
    | .ok tags =>
      match tags.filter (fun t => strStartsWith t pre && versionPatternMatch t) with
      | [] => .ok pre
      | c :: rest => .ok (renderVersion (parseVersion (maxTag c rest)))

/-- One output line `NAME=VERSION` of the batched query script: split on the
first `=`, strip the value, and treat empty or `(none)` as a null result. -/
def parseLine (acc : List (String × Option String)) (line : String) :
    List (String × Option String) :=
  match splitChar '=' line with
  | [] => acc
  | [_] => acc
  | name :: rest =>
    let v := trimStr (joinWith "=" rest)
    if v ≠ "" ∧ v ≠ "(none)" then dictInsert name (some v) acc
    else dictInsert name none acc

/-- Parse the script output and ensure every requested package has an entry. -/
def parseFetched (packages : List String) (output : String) :
    List (String × Option String) :=
  let results := (splitChar '\n' output).foldl parseLine []
  packages.foldl
    (fun acc p => if (dictGet p acc).isSome then acc else acc ++ [(p, none)]) results

/-- `fetch_all_package_versions(os_name, version, packages)`: a failed container
run is caught with a warning and yields null for every package; an OS with no
query strategy yields null for every package. -/
def fetch_all_package_versions (env : Env) (os_name ver : String)
    (packages : List String) : List (String × Option String) :=
  if packages = [] then []
  else if os_name = "ubuntu" ∨ os_name = "alpine" then
    match env.runQuery os_name ver packages with
    | .error _ => packages.map (fun p => (p, none))
    | .ok output => parseFetched packages output
  else packages.map (fun p => (p, none))

/-! ## Package-versions document access -/

/-- The `(os, version_key)` sub-document, if both keys exist. -/
def pvAt (pv : PkgVersions) (os vk : String) : Option SectionMap :=
  (dictGet os pv).bind (dictGet vk)

def pvGet (pv : PkgVersions) (os vk b p : String) : Option String :=
  ((pvAt pv os vk).bind (dictGet b)).bind (dictGet p)

/-- `package_versions.setdefault(os, {}).setdefault(version_key, {})`. -/
def pvEnsure (pv : PkgVersions) (os vk : String) : PkgVersions :=
  dictUpdate os [] (dictUpdate vk [] id) pv

/-- `pkg_versions.setdefault(bucket, {})` inside the `(os, vk)` sub-document. -/
def pvEnsureBucket (pv : PkgVersions) (os vk b : String) : PkgVersions :=
  dictUpdate os [] (dictUpdate vk [] (dictUpdate b [] id)) pv

/-- `bucket_versions[package] = value` inside the `(os, vk)` sub-document. -/
def pvSet (pv : PkgVersions) (os vk b p v : String) : PkgVersions :=
  dictUpdate os [] (dictUpdate vk [] (dictUpdate b [] (dictInsert p v))) pv

/-! ## The reconciler (`update_manifest`) -/

structure UpdateResult where
  alias_updates : List ((String × String) × String)
  package_updates : List ((String × String × String) × String)
  manifest_version_bumped : Bool
  deriving DecidableEq, Repr

/-- The mutable state threaded through the reconciliation walk. -/
structure St where
  pv : PkgVersions
  aliasUpd : List ((String × String) × String)
  pkgUpd : List ((String × String × String) × String)
  deriving DecidableEq, Repr

/-- `all_packages`: every package of every bucket, in declaration order. -/
def allPackages (pkg_data : List (String × List String)) : List String :=
  pkg_data.foldl (fun acc bp => acc ++ bp.2) []

/-- `package_to_bucket`: the (last) bucket declaring each package. -/
def packageToBucket (pkg_data : List (String × List String)) :
    List (String × String) :=
  pkg_data.foldl (fun acc bp => bp.2.foldl (fun a p => dictInsert p bp.1 a) acc) []

/-- The `for package, version_value in fetched_versions.items()` loop.
A package missing from `package_to_bucket` is the Python `KeyError`
(an uncaught exception aborting the run). -/
def applyFetched (os vk : String) (p2b : List (String × String)) :
    List (String × Option String) → PkgVersions →
    List ((String × String × String) × String) →
    Except String (PkgVersions × List ((String × String × String) × String))
  | [], pv, upd => .ok (pv, upd)
  | (pkg, vv) :: rest, pv, upd =>
    match vv with
    | none => applyFetched os vk p2b rest pv upd
    | some v =>
      if v = "" then applyFetched os vk p2b rest pv upd
      else
        match dictGet pkg p2b with
        | none => .error ("KeyError: " ++ pkg)
        | some b =>
          let pv1 := pvEnsureBucket pv os vk b
          if pvGet pv1 os vk b pkg = some v then applyFetched os vk p2b rest pv1 upd
          else
            applyFetched os vk p2b rest (pvSet pv1 os vk b pkg v)
              (dictInsert (os, vk, pkg) v upd)

/-- The body of the inner loop of `update_manifest` for one
`(os_name, version_key, metadata)` target. -/
def processTarget (env : Env) (os vk : String) (meta : TargetMeta) (st : St) :
    Except String (TargetMeta × St) :=
  match fetch_latest_tag env os meta.base with
  | .error e => .error e
  | .ok latest =>
    let meta' := if meta.alias_patch = some latest then meta
                 else { meta with alias_patch := some latest }
    let aliasUpd' := if meta.alias_patch = some latest then st.aliasUpd
                     else dictInsert (os, vk) latest st.aliasUpd
    let pv0 := pvEnsure st.pv os vk
    let fetched := fetch_all_package_versions env os meta.base (allPackages meta.packages)
    match applyFetched os vk (packageToBucket meta.packages) fetched pv0 st.pkgUpd with
    | .error e => .error e
    | .ok (pv', upd') => .ok (meta', ⟨pv', aliasUpd', upd'⟩)

def processVersions (env : Env) (os : String) :
    List (String × TargetMeta) → St → Except String (List (String × TargetMeta) × St)
  | [], st => .ok ([], st)
  | (vk, meta) :: rest, st =>
    match processTarget env os vk meta st with
    | .error e => .error e
    | .ok (meta', st') =>
      match processVersions env os rest st' with
      | .error e => .error e
      | .ok (rest', st'') => .ok ((vk, meta') :: rest', st'')

def processTargets (env : Env) :
    Targets → St → Except String (Targets × St)
  | [], st => .ok ([], st)
  | (os, vs) :: rest, st =>
    match processVersions env os vs st with
    | .error e => .error e
    | .ok (vs', st') =>
      match processTargets env rest st' with
      | .error e => .error e
      | .ok (rest', st'') => .ok ((os, vs') :: rest', st'')

/-- `update_manifest(manifest, package_versions)`.  `now` stands for
`datetime.utcnow().isoformat(timespec="seconds") + "Z"`.  An exception from
`fetch_latest_tag` (transport failure) or a `KeyError` propagates as
`Except.error`, aborting the walk; a failed container run never does. -/
def update_manifest (env : Env) (now : String) (manifest : Manifest)
    (pv : PkgVersions) : Except String (Manifest × PkgVersions × UpdateResult) :=
  match processTargets env manifest.targets ⟨pv, [], []⟩ with
  | .error e => .error e
  | .ok (ts', st) =>
    let has_updates := !(st.aliasUpd.isEmpty && st.pkgUpd.isEmpty)
    let metadata' := if has_updates then dictInsert "last_updated" now manifest.metadata
                     else manifest.metadata
    .ok ({ manifest with targets := ts', metadata := metadata' },
         st.pv,
         ⟨st.aliasUpd, st.pkgUpd, has_updates⟩)

/-! ## The drift classifier (`detect_changes.py`) -/

def significant_packages : List String :=
  ["docker-ce", "docker", "podman", "containerd.io", "containerd",
   "docker-compose-plugin", "docker-cli-compose"]

/-- One tagged change record produced by `check_for_changes`. -/
inductive Change where
  | compose (old new : String)
  | alias_patch (os ver old new : String)
  | package (os ver sec pkg : String) (old : Option String) (new : String)
  deriving DecidableEq, Repr

/-- `prev_targets.get("docker_compose_version", "") if prev_targets else ""`.
A baseline that could not be loaded (`load_json_from_git` returning `None`)
is the `none` argument. -/
def prevCompose (pt : Option Manifest) : String :=
  match pt with
  | none => ""
  | some p => p.docker_compose_version

/-- The nested `prev_targets.get(...).get(...).get("alias_patch", "")` chain. -/
def prevPatch (pt : Option Manifest) (os vk : String) : String :=
  match pt with
  | none => ""
  | some p =>
    match (dictGet os p.targets).bind (dictGet vk) with
    | none => ""
    | some m => m.alias_patch.getD ""

/-- The nested `prev_versions.get(...)....get(package)` chain. -/
def prevPkg (pvv : Option PkgVersions) (os ver sec pkg : String) : Option String :=
  match pvv with
  | none => none
  | some pv => pvGet pv os ver sec pkg

def concatMap {α β : Type} (f : α → List β) : List α → List β
  | [] => []
  | a :: as => f a ++ concatMap f as

def composeChanges (ct : Manifest) (pt : Option Manifest) : List Change :=
  let cur := ct.docker_compose_version
  if cur ≠ "" ∧ cur ≠ prevCompose pt then [.compose (prevCompose pt) cur] else []

def aliasChanges (ct : Manifest) (pt : Option Manifest) : List Change :=
  concatMap (fun osvs =>
    concatMap (fun vm =>
      let cur := vm.2.alias_patch.getD ""
      if cur ≠ "" ∧ cur ≠ prevPatch pt osvs.1 vm.1 then
        [.alias_patch osvs.1 vm.1 (prevPatch pt osvs.1 vm.1) cur]
      else []) osvs.2) ct.targets

def packageChanges (cv : PkgVersions) (pvv : Option PkgVersions) : List Change :=
  concatMap (fun osvs =>
    if osvs.1 = "docker_compose_version" then []
    else
      concatMap (fun vsec =>
        concatMap (fun spk =>
          concatMap (fun pkv =>
            if significant_packages.contains pkv.1 then
              if prevPkg pvv osvs.1 vsec.1 spk.1 pkv.1 ≠ some pkv.2 then
                [.package osvs.1 vsec.1 spk.1 pkv.1
                  (prevPkg pvv osvs.1 vsec.1 spk.1 pkv.1) pkv.2]
              else []
            else []) spk.2) vsec.2) osvs.2) cv

/-- `check_for_changes()` over working documents `ct`/`cv` and baseline
documents `pt`/`pvv` (`none` when `git show HEAD:...` fails or does not
parse).  The `isinstance(packages, dict)` guard is enforced by the types. -/
def check_for_changes (ct : Manifest) (cv : PkgVersions) (pt : Option Manifest)
    (pvv : Option PkgVersions) : List Change :=
  composeChanges ct pt ++ aliasChanges ct pt ++ packageChanges cv pvv

/-! ## The tag alias publisher retry loop (`tag_aliases.py`) -/

def MAX_RETRIES : Nat := 3
def RETRY_DELAY_SECONDS : Nat := 30

/-- `needle in haystack` on strings, as character-list infix. -/
def listIsInfixOf : List Char → List Char → Bool
  | p, [] => p.isEmpty
  | p, c :: cs => p.isPrefixOf (c :: cs) || listIsInfixOf p cs

/-- `"429" in stderr or "Too Many Requests" in stderr`. -/
def isRateLimit (stderr : String) : Bool :=
  listIsInfixOf "429".toList stderr.toList ||
    listIsInfixOf "Too Many Requests".toList stderr.toList

/-- The `for attempt in range(1, MAX_RETRIES + 1)` loop of `retag` (lines
60-76; the `dry_run` branch returns before the loop and is not modelled).
`run attempt` is the `(returncode, stderr)` of the `docker buildx imagetools
create` subprocess on that attempt.  On success the result carries the
succeeding attempt number and the total `time.sleep` duration; a raised
`CalledProcessError` is `Except.error` carrying the failing run's result.
The `[]` case is unreachable: the final attempt either returns or raises. -/
def retagLoop (run : Nat → Nat × String) :
    List Nat → Nat → Except (Nat × String) (Nat × Nat)
  | [], _ => .error (0, "")
  | attempt :: rest, waited =>
    let r := run attempt
    if r.1 = 0 then .ok (attempt, waited)
    else if isRateLimit r.2 ∧ attempt < MAX_RETRIES then
      retagLoop run rest (waited + RETRY_DELAY_SECONDS * attempt)
    else .error r

def retag (run : Nat → Nat × String) : Except (Nat × String) (Nat × Nat) :=
  retagLoop run (List.range' 1 MAX_RETRIES) 0

/-! ## The version bump policy -/

/-- Modelled from the spec: the bump step is performed by `bump_version.py`,
which the reconciler's workflow invokes separately (noted at line 209 of
`update_manifest_versions.py`) but whose source is not in the repository.
Per the spec, the release `version` is a dotted numeric triple
`(major, minor, patch)` and the bump advances the patch component by
exactly one, leaving major and minor untouched. -/
def bump_triple (v : Nat × Nat × Nat) : Nat × Nat × Nat := (v.1, v.2.1, v.2.2 + 1)

/-- Modelled from the spec: the bump is applied exactly when the
reconciliation run reported that an update occurred, and never otherwise. -/
def apply_bump_policy (hasUpdates : Bool) (v : Nat × Nat × Nat) : Nat × Nat × Nat :=
  if hasUpdates then bump_triple v else v

/-! ## Deterministic serialization (`save_json`)

`json.dumps(data, indent=2, sort_keys=True) + "\n"`: objects render their
fields in sorted key order with two-space indentation.  Key sorting happens
in the encoders (`manifestToJson`, `pvToJson`); the renderer keeps the order
it is given.  Control characters do not occur in the documents, so only the
quote and backslash are escaped. -/

mutual
inductive JVal where
  | str (s : String)
  | arr (elems : JList)
  | obj (fields : JObj)
inductive JList where
  | nil
  | cons (v : JVal) (rest : JList)
inductive JObj where
  | nil
  | cons (k : String) (v : JVal) (rest : JObj)
end

def quoteChar : Char := Char.ofNat 34
def backslashChar : Char := Char.ofNat 92

def escChar (c : Char) : String :=
  if c = backslashChar then String.mk [backslashChar, backslashChar]
  else if c = quoteChar then String.mk [backslashChar, quoteChar]
  else String.mk [c]

def jquote (s : String) : String :=
  String.mk [quoteChar] ++ String.join (s.toList.map escChar) ++ String.mk [quoteChar]

def spaces (n : Nat) : String := String.mk (List.replicate n ' ')

mutual
def jdump : Nat → JVal → String
  | _, .str s => jquote s
  | _, .arr .nil => "[]"
  | ind, .arr es => "[\n" ++ jdumpArr (ind + 2) es ++ "\n" ++ spaces ind ++ "]"
  | _, .obj .nil => "\x7b\x7d"
  | ind, .obj fs => "\x7b\n" ++ jdumpObj (ind + 2) fs ++ "\n" ++ spaces ind ++ "\x7d"
def jdumpArr : Nat → JList → String
  | _, .nil => ""
  | ind, .cons e .nil => spaces ind ++ jdump ind e
  | ind, .cons e es => spaces ind ++ jdump ind e ++ ",\n" ++ jdumpArr ind es
def jdumpObj : Nat → JObj → String
  | _, .nil => ""
  | ind, .cons k v .nil => spaces ind ++ jquote k ++ ": " ++ jdump ind v
  | ind, .cons k v fs => spaces ind ++ jquote k ++ ": " ++ jdump ind v ++ ",\n" ++ jdumpObj ind fs
end

def insertSorted (kv : String × JVal) : List (String × JVal) → List (String × JVal)
  | [] => [kv]
  | h :: t => if kv.1 ≤ h.1 then kv :: h :: t else h :: insertSorted kv t

def toJObj : List (String × JVal) → JObj
  | [] => .nil
  | (k, v) :: rest => .cons k v (toJObj rest)

/-- An object with its fields in sorted key order (`sort_keys=True`). -/
def sortedObj (l : List (String × JVal)) : JVal :=
  .obj (toJObj (l.foldr insertSorted []))

def toJList : List JVal → JList
  | [] => .nil
  | v :: rest => .cons v (toJList rest)

def bucketToJson (b : List String) : JVal := .arr (toJList (b.map .str))

def metaToJson (m : TargetMeta) : JVal :=
  sortedObj
    ([("base", .str m.base),
      ("packages", sortedObj (m.packages.map (fun bp => (bp.1, bucketToJson bp.2))))] ++
      (match m.alias_patch with
       | none => []
       | some a => [("alias_patch", .str a)]))

def channelToJson (c : Channel) : JVal :=
  sortedObj [("os", .str c.os), ("version", .str c.version), ("engine", .str c.engine)]

def manifestToJson (m : Manifest) : JVal :=
  sortedObj
    [("version", .str m.version),
     ("docker_compose_version", .str m.docker_compose_version),
     ("targets", sortedObj (m.targets.map (fun osvs =>
        (osvs.1, sortedObj (osvs.2.map (fun vm => (vm.1, metaToJson vm.2))))))),
     ("channels", sortedObj (m.channels.map (fun ac => (ac.1, channelToJson ac.2)))),
     ("metadata", sortedObj (m.metadata.map (fun kv => (kv.1, .str kv.2))))]

def pvToJson (pv : PkgVersions) : JVal :=
  sortedObj (pv.map (fun osm =>
    (osm.1, sortedObj (osm.2.map (fun vm =>
      (vm.1, sortedObj (vm.2.map (fun sm =>
        (sm.1, sortedObj (sm.2.map (fun kv => (kv.1, JVal.str kv.2))))))))))))

/-- `save_json`: the serialized document with the trailing newline. -/
def save_json (j : JVal) : String := jdump 0 j ++ "\n"

/-! ## Access lemmas for the package-versions document -/

theorem pvAt_update_self (pv : PkgVersions) (os vk : String)
    (g : SectionMap → SectionMap) :
    pvAt (dictUpdate os [] (dictUpdate vk [] g) pv) os vk
      = some (g ((pvAt pv os vk).getD [])) := by
  unfold pvAt
  rw [dictGet_dictUpdate_self]
  cases h : dictGet os pv with
  | none => simp [h, dictGet_dictUpdate_self]
  | some d => simp [h, dictGet_dictUpdate_self]

theorem pvAt_update_frame (pv : PkgVersions) (os vk os' vk' : String)
    (g : SectionMap → SectionMap) (h : ¬(os' = os ∧ vk' = vk)) :
    pvAt (dictUpdate os' [] (dictUpdate vk' [] g) pv) os vk = pvAt pv os vk := by
  unfold pvAt
  by_cases ho : os' = os
  · subst ho
    have hvk : vk ≠ vk' := fun hv => h ⟨rfl, hv.symm⟩
    rw [dictGet_dictUpdate_self]
    cases hd : dictGet os' pv with
    | none => simp [dictGet_dictUpdate_ne hvk]
    | some d => simp [dictGet_dictUpdate_ne hvk]
  · rw [dictGet_dictUpdate_ne (fun hv => ho hv.symm)]

theorem pvGet_congr {pv pv' : PkgVersions} {os vk : String}
    (h : pvAt pv os vk = pvAt pv' os vk) (b p : String) :
    pvGet pv os vk b p = pvGet pv' os vk b p := by
  unfold pvGet
  rw [h]

theorem pvGet_pvEnsure (pv : PkgVersions) (os' vk' os vk b p : String) :
    pvGet (pvEnsure pv os' vk') os vk b p = pvGet pv os vk b p := by
  by_cases h : os' = os ∧ vk' = vk
  · obtain ⟨rfl, rfl⟩ := h
    unfold pvGet pvEnsure
    rw [pvAt_update_self]
    cases hd : pvAt pv os' vk' with
    | none => simp [hd]
    | some d => simp [hd]
  · exact pvGet_congr (pvAt_update_frame pv os vk os' vk' id h) b p

theorem pvGet_pvEnsureBucket (pv : PkgVersions) (os' vk' b' os vk b p : String) :
    pvGet (pvEnsureBucket pv os' vk' b') os vk b p = pvGet pv os vk b p := by
  by_cases h : os' = os ∧ vk' = vk
  · obtain ⟨rfl, rfl⟩ := h
    unfold pvGet pvEnsureBucket
    rw [pvAt_update_self]
    by_cases hb : b' = b
    · subst hb
      cases hd : pvAt pv os' vk' with
      | none =>
        simp [hd, dictGet_dictUpdate_self]
      | some d =>
        simp [hd, dictGet_dictUpdate_self]
        cases hbd : dictGet b' d with
        | none => simp
        | some bd => simp
    · cases hd : pvAt pv os' vk' with
      | none => simp [hd, dictGet_dictUpdate_ne (fun hv => hb hv.symm)]
      | some d => simp [hd, dictGet_dictUpdate_ne (fun hv => hb hv.symm)]
  · exact pvGet_congr (pvAt_update_frame pv os vk os' vk' _ h) b p

theorem pvGet_pvSet_self (pv : PkgVersions) (os vk b p v : String) :
    pvGet (pvSet pv os vk b p v) os vk b p = some v := by
  unfold pvGet pvSet
  rw [pvAt_update_self]
  simp [dictGet_dictUpdate_self, dictGet_dictInsert_self]

theorem pvGet_pvSet_ne (pv : PkgVersions) {os' vk' b' p' : String} (v : String)
    {os vk b p : String} (h : ¬(os' = os ∧ vk' = vk ∧ b' = b ∧ p' = p)) :
    pvGet (pvSet pv os' vk' b' p' v) os vk b p = pvGet pv os vk b p := by
  by_cases hov : os' = os ∧ vk' = vk
  · obtain ⟨rfl, rfl⟩ := hov
    unfold pvGet pvSet
    rw [pvAt_update_self]
    by_cases hb : b' = b
    · subst hb
      have hp : p ≠ p' := fun hv => h ⟨rfl, rfl, rfl, hv.symm⟩
      cases hd : pvAt pv os' vk' with
      | none =>
        simp [hd, dictGet_dictUpdate_self, dictGet_dictInsert_ne hp]
      | some d =>
        simp [hd, dictGet_dictUpdate_self, dictGet_dictInsert_ne hp]
        cases hbd : dictGet b' d with
        | none => simp [dictGet_dictInsert_ne hp]
        | some bd => simp [dictGet_dictInsert_ne hp]
    · cases hd : pvAt pv os' vk' with
      | none => simp [hd, dictGet_dictUpdate_ne (fun hv => hb hv.symm)]
      | some d => simp [hd, dictGet_dictUpdate_ne (fun hv => hb hv.symm)]
  · exact pvGet_congr (pvAt_update_frame pv os vk os' vk' _ hov) b p

theorem pvEnsure_eq_self {pv : PkgVersions} {os vk : String} {d : SectionMap}
    (h : pvAt pv os vk = some d) : pvEnsure pv os vk = pv := by
  unfold pvAt at h
  cases ho : dictGet os pv with
  | none => rw [ho] at h; cases h
  | some dd =>
    rw [ho] at h
    simp only [Option.some_bind] at h
    unfold pvEnsure
    exact dictUpdate_eq_self ho [] (dictUpdate_eq_self h [] rfl)

theorem pvEnsureBucket_eq_self {pv : PkgVersions} {os vk b p : String} {v : String}
    (h : pvGet pv os vk b p = some v) : pvEnsureBucket pv os vk b = pv := by
  unfold pvGet pvAt at h
  cases ho : dictGet os pv with
  | none => rw [ho] at h; cases h
  | some d =>
    rw [ho] at h
    simp only [Option.some_bind] at h
    cases hv : dictGet vk d with
    | none => rw [hv] at h; cases h
    | some sd =>
      rw [hv] at h
      simp only [Option.some_bind] at h
      cases hb : dictGet b sd with
      | none => rw [hb] at h; cases h
      | some bd =>
        unfold pvEnsureBucket
        exact dictUpdate_eq_self ho []
          (dictUpdate_eq_self hv [] (dictUpdate_eq_self hb [] rfl))

theorem pvAt_pvSet_isSome (pv : PkgVersions) (os vk b p v : String) :
    (pvAt (pvSet pv os vk b p v) os vk).isSome := by
  unfold pvSet
  rw [pvAt_update_self]
  rfl

theorem pvAt_pvEnsureBucket_isSome (pv : PkgVersions) (os vk b : String) :
    (pvAt (pvEnsureBucket pv os vk b) os vk).isSome := by
  unfold pvEnsureBucket
  rw [pvAt_update_self]
  rfl

theorem pvAt_pvEnsure_isSome (pv : PkgVersions) (os vk : String) :
    (pvAt (pvEnsure pv os vk) os vk).isSome := by
  unfold pvEnsure
  rw [pvAt_update_self]
  rfl

theorem pvAt_pvEnsure_frame {pv : PkgVersions} {os vk os₂ vk₂ : String}
    (h : ¬(os = os₂ ∧ vk = vk₂)) :
    pvAt (pvEnsure pv os vk) os₂ vk₂ = pvAt pv os₂ vk₂ :=
  pvAt_update_frame pv os₂ vk₂ os vk _ h

theorem pvAt_pvEnsureBucket_frame {pv : PkgVersions} {os vk b os₂ vk₂ : String}
    (h : ¬(os = os₂ ∧ vk = vk₂)) :
    pvAt (pvEnsureBucket pv os vk b) os₂ vk₂ = pvAt pv os₂ vk₂ :=
  pvAt_update_frame pv os₂ vk₂ os vk _ h

theorem pvAt_pvSet_frame {pv : PkgVersions} {os vk b p v os₂ vk₂ : String}
    (h : ¬(os = os₂ ∧ vk = vk₂)) :
    pvAt (pvSet pv os vk b p v) os₂ vk₂ = pvAt pv os₂ vk₂ :=
  pvAt_update_frame pv os₂ vk₂ os vk _ h

/-! ## Well-formedness of fetched package results -/

def isTruthy : Option String → Bool
  | none => false
  | some v => if v = "" then false else true

/-- The packages that carry a non-null, non-empty resolved version. -/
def truthyKeys (l : List (String × Option String)) : List String :=
  (l.filter (fun e => isTruthy e.2)).map Prod.fst

theorem truthyKeys_cons (e : String × Option String) (l : List (String × Option String)) :
    truthyKeys (e :: l) = if isTruthy e.2 then e.1 :: truthyKeys l else truthyKeys l := by
  unfold truthyKeys
  by_cases h : isTruthy e.2 <;> simp [List.filter_cons, h]

theorem truthyKeys_allNone {l : List (String × Option String)}
    (h : ∀ e ∈ l, e.2 = none) : truthyKeys l = [] := by
  induction l with
  | nil => rfl
  | cons e rest ih =>
    rw [truthyKeys_cons]
    rw [h e (List.mem_cons_self e rest)]
    exact ih (fun x hx => h x (List.mem_cons_of_mem e hx))

theorem truthyKeys_sublist_keys (l : List (String × Option String)) :
    (truthyKeys l).Sublist (l.map Prod.fst) :=
  (List.filter_sublist l).map Prod.fst

theorem truthyKeys_nodup_of_keys_nodup {l : List (String × Option String)}
    (h : (l.map Prod.fst).Nodup) : (truthyKeys l).Nodup :=
  h.sublist (truthyKeys_sublist_keys l)

theorem isTruthy_none : isTruthy none = false := rfl

theorem isTruthy_empty : isTruthy (some "") = false := rfl

theorem isTruthy_some {v : String} (h : v ≠ "") : isTruthy (some v) = true := by
  simp [isTruthy, h]

theorem parseLine_keys_nodup (acc : List (String × Option String)) (line : String)
    (h : (acc.map Prod.fst).Nodup) : ((parseLine acc line).map Prod.fst).Nodup := by
  unfold parseLine
  split
  · exact h
  · exact h
  · dsimp only
    split
    · exact nodup_fst_dictInsert _ _ _ h
    · exact nodup_fst_dictInsert _ _ _ h

theorem foldl_parseLine_keys_nodup (lines : List String) (acc : List (String × Option String))
    (h : (acc.map Prod.fst).Nodup) : ((lines.foldl parseLine acc).map Prod.fst).Nodup := by
  induction lines generalizing acc with
  | nil => exact h
  | cons ln rest ih => exact ih _ (parseLine_keys_nodup acc ln h)

theorem ensure_foldl_keys_nodup (ps : List String) (acc : List (String × Option String))
    (h : (acc.map Prod.fst).Nodup) :
    ((ps.foldl (fun acc p =>
        if (dictGet p acc).isSome then acc else acc ++ [(p, none)]) acc).map Prod.fst).Nodup := by
  induction ps generalizing acc with
  | nil => exact h
  | cons p rest ih =>
    simp only [List.foldl_cons]
    apply ih
    by_cases hp : (dictGet p acc).isSome
    · rw [if_pos hp]; exact h
    · rw [if_neg hp]
      have hnone : dictGet p acc = none := by
        cases hg : dictGet p acc
        · rfl
        · rw [hg] at hp; simp at hp
      have hmem := (dictGet_eq_none_iff p acc).1 hnone
      simp only [List.map_append, List.map_cons, List.map_nil]
      rw [List.nodup_append]
      refine ⟨h, List.nodup_singleton p, ?_⟩
      intro x hx hx'
      simp only [List.mem_singleton] at hx'
      subst hx'
      exact hmem hx

theorem parseFetched_keys_nodup (packages : List String) (output : String) :
    ((parseFetched packages output).map Prod.fst).Nodup := by
  unfold parseFetched
  exact ensure_foldl_keys_nodup packages _
    (foldl_parseLine_keys_nodup _ [] (by simp))

theorem truthyKeys_map_none (ps : List String) :
    truthyKeys (ps.map (fun p => (p, (none : Option String)))) = [] := by
  apply truthyKeys_allNone
  intro e he
  rcases List.mem_map.1 he with ⟨p, hp, rfl⟩
  rfl

theorem fetched_truthyKeys_nodup (env : Env) (os ver : String) (ps : List String) :
    (truthyKeys (fetch_all_package_versions env os ver ps)).Nodup := by
  unfold fetch_all_package_versions
  split
  · exact List.nodup_nil
  · split
    · split
      · rw [truthyKeys_map_none]
        exact List.nodup_nil
      · exact truthyKeys_nodup_of_keys_nodup (parseFetched_keys_nodup ps _)
    · rw [truthyKeys_map_none]
      exact List.nodup_nil

theorem not_truthy_of_get_none {l : List (String × Option String)} {pkg : String}
    (hn : (l.map Prod.fst).Nodup) (hg : dictGet pkg l = some none) :
    pkg ∉ truthyKeys l := by
  induction l with
  | nil => cases hg
  | cons e rest ih =>
    obtain ⟨k, v⟩ := e
    simp only [List.map_cons, List.nodup_cons] at hn
    rw [truthyKeys_cons]
    by_cases hk : k = pkg
    · subst hk
      unfold dictGet at hg
      rw [if_pos rfl] at hg
      injection hg with hv
      subst hv
      simp only [isTruthy, if_neg]
      intro hmem
      exact hn.1 ((truthyKeys_sublist_keys rest).subset hmem)
    · unfold dictGet at hg
      rw [if_neg hk] at hg
      have hrest := ih hn.2 hg
      by_cases ht : isTruthy v
      · rw [if_pos ht]
        intro hmem
        rcases List.mem_cons.1 hmem with h1 | h1
        · exact hk h1.symm
        · exact hrest h1
      · rw [if_neg ht]; exact hrest

/-- A fetched result is all-null whenever the container run failed or the OS
has no query strategy. -/
theorem fetched_allNone_of_error (env : Env) (os ver : String) (ps : List String)
    (h : ∃ e0, env.runQuery os ver ps = .error e0) :
    ∀ e ∈ fetch_all_package_versions env os ver ps, e.2 = none := by
  obtain ⟨e0, he0⟩ := h
  unfold fetch_all_package_versions
  split
  · intro e he; cases he
  · split
    · rw [he0]
      show ∀ e ∈ ps.map (fun p => ((p : String), (none : Option String))), e.2 = none
      intro e he
      rcases List.mem_map.1 he with ⟨p, hp, rfl⟩
      rfl
    · intro e he
      rcases List.mem_map.1 he with ⟨p, hp, rfl⟩
      rfl

/-! ## `applyFetched` lemmas -/

theorem applyFetched_frame (os vk : String) (p2b : List (String × String)) :
    ∀ (l : List (String × Option String)) pv upd pv' upd',
      applyFetched os vk p2b l pv upd = .ok (pv', upd') →
      (∀ os₂ vk₂, ¬(os = os₂ ∧ vk = vk₂) → pvAt pv' os₂ vk₂ = pvAt pv os₂ vk₂) ∧
      (∀ os₂ vk₂ p, ¬(os = os₂ ∧ vk = vk₂) →
        dictGet (os₂, vk₂, p) upd' = dictGet (os₂, vk₂, p) upd) := by
  intro l
  induction l with
  | nil =>
    intro pv upd pv' upd' h
    injection h with h1
    injection h1 with h2 h3
    subst h2; subst h3
    exact ⟨fun _ _ _ => rfl, fun _ _ _ _ => rfl⟩
  | cons e rest ih =>
    obtain ⟨pkg, vv⟩ := e
    intro pv upd pv' upd' h
    cases vv with
    | none =>
      simp only [applyFetched] at h
      exact ih pv upd pv' upd' h
    | some v =>
      simp only [applyFetched] at h
      by_cases hv : v = ""
      · rw [if_pos hv] at h
        exact ih pv upd pv' upd' h
      · rw [if_neg hv] at h
        cases hb : dictGet pkg p2b with
        | none =>
          simp only [hb] at h
          exact Except.noConfusion h
        | some b =>
          simp only [hb] at h
          by_cases hg : pvGet (pvEnsureBucket pv os vk b) os vk b pkg = some v
          · rw [if_pos hg] at h
            obtain ⟨h1, h2⟩ := ih _ _ _ _ h
            refine ⟨fun os₂ vk₂ hne => ?_, fun os₂ vk₂ p hne => h2 _ _ _ hne⟩
            rw [h1 os₂ vk₂ hne]
            exact pvAt_pvEnsureBucket_frame hne
          · rw [if_neg hg] at h
            obtain ⟨h1, h2⟩ := ih _ _ _ _ h
            constructor
            · intro os₂ vk₂ hne
              rw [h1 os₂ vk₂ hne, pvAt_pvSet_frame hne]
              exact pvAt_pvEnsureBucket_frame hne
            · intro os₂ vk₂ p hne
              rw [h2 os₂ vk₂ p hne]
              have hkey : (os₂, vk₂, p) ≠ (os, vk, pkg) := by
                intro he
                rw [Prod.mk.injEq, Prod.mk.injEq] at he
                exact hne ⟨he.1.symm, he.2.1.symm⟩
              exact dictGet_dictInsert_ne hkey v upd

theorem applyFetched_skip (os vk : String) (p2b : List (String × String)) :
    ∀ (l : List (String × Option String)) pv upd pv' upd',
      applyFetched os vk p2b l pv upd = .ok (pv', upd') →
      ∀ pkg, pkg ∉ truthyKeys l →
      (∀ b, pvGet pv' os vk b pkg = pvGet pv os vk b pkg) ∧
      dictGet (os, vk, pkg) upd' = dictGet (os, vk, pkg) upd := by
  intro l
  induction l with
  | nil =>
    intro pv upd pv' upd' h pkg _
    injection h with h1
    injection h1 with h2 h3
    subst h2; subst h3
    exact ⟨fun _ => rfl, rfl⟩
  | cons e rest ih =>
    obtain ⟨pkg', vv⟩ := e
    intro pv upd pv' upd' h pkg hmem
    rw [truthyKeys_cons] at hmem
    cases vv with
    | none =>
      simp only [applyFetched] at h
      simp [isTruthy] at hmem
      exact ih pv upd pv' upd' h pkg hmem
    | some v =>
      simp only [applyFetched] at h
      by_cases hv : v = ""
      · rw [if_pos hv] at h
        subst hv
        simp [isTruthy] at hmem
        exact ih pv upd pv' upd' h pkg hmem
      · rw [if_neg hv] at h
        have htr : isTruthy (some v) = true := by
          simp [isTruthy, hv]
        rw [htr, if_pos rfl] at hmem
        simp only [List.mem_cons, not_or] at hmem
        obtain ⟨hne, hmem⟩ := hmem
        cases hb : dictGet pkg' p2b with
        | none =>
          simp only [hb] at h
          exact Except.noConfusion h
        | some b =>
          simp only [hb] at h
          by_cases hg : pvGet (pvEnsureBucket pv os vk b) os vk b pkg' = some v
          · rw [if_pos hg] at h
            obtain ⟨h1, h2⟩ := ih _ _ _ _ h pkg hmem
            refine ⟨fun b' => ?_, h2⟩
            rw [h1 b']
            exact pvGet_pvEnsureBucket pv os vk b os vk b' pkg
          · rw [if_neg hg] at h
            obtain ⟨h1, h2⟩ := ih _ _ _ _ h pkg hmem
            constructor
            · intro b'
              rw [h1 b']
              rw [pvGet_pvSet_ne _ v (by intro hc; exact hne hc.2.2.2.symm)]
              exact pvGet_pvEnsureBucket pv os vk b os vk b' pkg
            · rw [h2]
              have hkey : (os, vk, pkg) ≠ (os, vk, pkg') := by
                intro he
                rw [Prod.mk.injEq, Prod.mk.injEq] at he
                exact hne he.2.2
              exact dictGet_dictInsert_ne hkey v upd

theorem applyFetched_allNone (os vk : String) (p2b : List (String × String)) :
    ∀ (l : List (String × Option String)) pv upd, (∀ e ∈ l, e.2 = none) →
      applyFetched os vk p2b l pv upd = .ok (pv, upd) := by
  intro l
  induction l with
  | nil => intro pv upd _; rfl
  | cons e rest ih =>
    intro pv upd h
    obtain ⟨pkg, vv⟩ := e
    have he : vv = none := h (pkg, vv) (List.mem_cons_self _ _)
    subst he
    simp only [applyFetched]
    exact ih pv upd (fun x hx => h x (List.mem_cons_of_mem _ hx))

theorem applyFetched_stable (os vk : String) (p2b : List (String × String)) :
    ∀ (l : List (String × Option String)) pvA updA pvC updC,
      applyFetched os vk p2b l pvA updA = .ok (pvC, updC) →
      (truthyKeys l).Nodup →
      ∀ pvB updB, pvAt pvB os vk = pvAt pvC os vk →
      applyFetched os vk p2b l pvB updB = .ok (pvB, updB) := by
  intro l
  induction l with
  | nil => intro pvA updA pvC updC _ _ pvB updB _; rfl
  | cons e rest ih =>
    obtain ⟨pkg, vv⟩ := e
    intro pvA updA pvC updC h hnd pvB updB hagree
    cases vv with
    | none =>
      simp only [applyFetched] at h ⊢
      rw [truthyKeys_cons] at hnd
      simp [isTruthy] at hnd
      exact ih _ _ _ _ h hnd _ _ hagree
    | some v =>
      simp only [applyFetched] at h ⊢
      by_cases hv : v = ""
      · rw [if_pos hv] at h ⊢
        rw [truthyKeys_cons] at hnd
        subst hv
        simp [isTruthy] at hnd
        exact ih _ _ _ _ h hnd _ _ hagree
      · rw [if_neg hv] at h ⊢
        rw [truthyKeys_cons] at hnd
        have htr : isTruthy (some v) = true := by simp [isTruthy, hv]
        rw [htr, if_pos rfl] at hnd
        rw [List.nodup_cons] at hnd
        cases hb : dictGet pkg p2b with
        | none =>
          simp only [hb] at h
          exact Except.noConfusion h
        | some b =>
          simp only [hb] at h ⊢
          by_cases hg : pvGet (pvEnsureBucket pvA os vk b) os vk b pkg = some v
          · rw [if_pos hg] at h
            have hkeep := applyFetched_skip os vk p2b rest _ _ _ _ h pkg hnd.1
            have hC : pvGet pvC os vk b pkg = some v := by
              rw [hkeep.1 b]
              rw [pvGet_pvEnsureBucket]
              rw [← pvGet_pvEnsureBucket pvA os vk b os vk b pkg]
              exact hg
            have hBv : pvGet pvB os vk b pkg = some v := by
              rw [pvGet_congr hagree b pkg]
              exact hC
            rw [pvEnsureBucket_eq_self hBv, if_pos hBv]
            exact ih _ _ _ _ h hnd.2 _ _ hagree
          · rw [if_neg hg] at h
            have hkeep := applyFetched_skip os vk p2b rest _ _ _ _ h pkg hnd.1
            have hC : pvGet pvC os vk b pkg = some v := by
              rw [hkeep.1 b, pvGet_pvSet_self]
            have hBv : pvGet pvB os vk b pkg = some v := by
              rw [pvGet_congr hagree b pkg]
              exact hC
            rw [pvEnsureBucket_eq_self hBv, if_pos hBv]
            exact ih _ _ _ _ h hnd.2 _ _ hagree

theorem applyFetched_pvAt_isSome (os vk : String) (p2b : List (String × String)) :
    ∀ (l : List (String × Option String)) pv upd pv' upd',
      applyFetched os vk p2b l pv upd = .ok (pv', upd') →
      (pvAt pv os vk).isSome = true → (pvAt pv' os vk).isSome = true := by
  intro l
  induction l with
  | nil =>
    intro pv upd pv' upd' h hs
    injection h with h1
    injection h1 with h2 h3
    subst h2
    exact hs
  | cons e rest ih =>
    obtain ⟨pkg, vv⟩ := e
    intro pv upd pv' upd' h hs
    cases vv with
    | none =>
      simp only [applyFetched] at h
      exact ih _ _ _ _ h hs
    | some v =>
      simp only [applyFetched] at h
      by_cases hv : v = ""
      · rw [if_pos hv] at h
        exact ih _ _ _ _ h hs
      · rw [if_neg hv] at h
        cases hb : dictGet pkg p2b with
        | none =>
          simp only [hb] at h
          exact Except.noConfusion h
        | some b =>
          simp only [hb] at h
          by_cases hg : pvGet (pvEnsureBucket pv os vk b) os vk b pkg = some v
          · rw [if_pos hg] at h
            exact ih _ _ _ _ h (pvAt_pvEnsureBucket_isSome pv os vk b)
          · rw [if_neg hg] at h
            exact ih _ _ _ _ h (pvAt_pvSet_isSome _ os vk b pkg v)

theorem fetched_wf (env : Env) (os ver : String) (ps : List String) :
    ((fetch_all_package_versions env os ver ps).map Prod.fst).Nodup ∨
      (∀ e ∈ fetch_all_package_versions env os ver ps, e.2 = none) := by
  unfold fetch_all_package_versions
  split
  · left; simp
  · split
    · split
      · right
        intro e he
        rcases List.mem_map.1 he with ⟨p, hp, rfl⟩
        rfl
      · left
        exact parseFetched_keys_nodup ps _
    · right
      intro e he
      rcases List.mem_map.1 he with ⟨p, hp, rfl⟩
      rfl

theorem fetched_not_truthy_of_get_none {env : Env} {os ver : String} {ps : List String}
    {pkg : String}
    (hg : dictGet pkg (fetch_all_package_versions env os ver ps) = some none) :
    pkg ∉ truthyKeys (fetch_all_package_versions env os ver ps) := by
  rcases fetched_wf env os ver ps with hwf | hwf
  · exact not_truthy_of_get_none hwf hg
  · rw [truthyKeys_allNone hwf]
    exact List.not_mem_nil pkg

/-! ## `processTarget` lemmas -/

theorem processTarget_inv {env : Env} {os vk : String} {meta : TargetMeta} {st : St}
    {meta' : TargetMeta} {st' : St}
    (h : processTarget env os vk meta st = .ok (meta', st')) :
    ∃ latest pv' upd',
      fetch_latest_tag env os meta.base = .ok latest ∧
      applyFetched os vk (packageToBucket meta.packages)
        (fetch_all_package_versions env os meta.base (allPackages meta.packages))
        (pvEnsure st.pv os vk) st.pkgUpd = .ok (pv', upd') ∧
      meta' = (if meta.alias_patch = some latest then meta
               else { meta with alias_patch := some latest }) ∧
      st' = ⟨pv', (if meta.alias_patch = some latest then st.aliasUpd
                   else dictInsert (os, vk) latest st.aliasUpd), upd'⟩ := by
  unfold processTarget at h
  cases hf : fetch_latest_tag env os meta.base with
  | error e =>
    rw [hf] at h
    exact Except.noConfusion h
  | ok latest =>
    simp only [hf] at h
    cases ha : applyFetched os vk (packageToBucket meta.packages)
        (fetch_all_package_versions env os meta.base (allPackages meta.packages))
        (pvEnsure st.pv os vk) st.pkgUpd with
    | error e =>
      rw [ha] at h
      exact Except.noConfusion h
    | ok pr =>
      obtain ⟨pv', upd'⟩ := pr
      simp only [ha] at h
      injection h with h1
      injection h1 with h2 h3
      exact ⟨latest, pv', upd', rfl, rfl, h2.symm, h3.symm⟩

theorem processTarget_eq (env : Env) (os vk : String) (meta : TargetMeta) (st : St)
    {latest : String} {pv' : PkgVersions} {upd' : List ((String × String × String) × String)}
    (hf : fetch_latest_tag env os meta.base = .ok latest)
    (ha : applyFetched os vk (packageToBucket meta.packages)
        (fetch_all_package_versions env os meta.base (allPackages meta.packages))
        (pvEnsure st.pv os vk) st.pkgUpd = .ok (pv', upd')) :
    processTarget env os vk meta st =
      .ok ((if meta.alias_patch = some latest then meta
            else { meta with alias_patch := some latest }),
           ⟨pv', (if meta.alias_patch = some latest then st.aliasUpd
                  else dictInsert (os, vk) latest st.aliasUpd), upd'⟩) := by
  unfold processTarget
  simp only [hf, ha]

theorem processTarget_frame {env : Env} {os vk : String} {meta : TargetMeta} {st : St}
    {meta' : TargetMeta} {st' : St}
    (h : processTarget env os vk meta st = .ok (meta', st'))
    {os₂ vk₂ : String} (hne : ¬(os = os₂ ∧ vk = vk₂)) :
    pvAt st'.pv os₂ vk₂ = pvAt st.pv os₂ vk₂ ∧
    (∀ p, dictGet (os₂, vk₂, p) st'.pkgUpd = dictGet (os₂, vk₂, p) st.pkgUpd) := by
  obtain ⟨latest, pv', upd', hf, ha, hm, hs⟩ := processTarget_inv h
  subst hs
  obtain ⟨h1, h2⟩ := applyFetched_frame os vk _ _ _ _ _ _ ha
  constructor
  · show pvAt pv' os₂ vk₂ = pvAt st.pv os₂ vk₂
    rw [h1 os₂ vk₂ hne]
    exact pvAt_pvEnsure_frame hne
  · intro p
    exact h2 os₂ vk₂ p hne

theorem processTarget_meta {env : Env} {os vk : String} {meta : TargetMeta} {st : St}
    {meta' : TargetMeta} {st' : St}
    (h : processTarget env os vk meta st = .ok (meta', st')) :
    meta'.base = meta.base ∧ meta'.packages = meta.packages ∧
    ∃ latest, fetch_latest_tag env os meta.base = .ok latest ∧
      meta'.alias_patch = some latest := by
  obtain ⟨latest, pv', upd', hf, ha, hm, hs⟩ := processTarget_inv h
  subst hm
  by_cases halias : meta.alias_patch = some latest
  · rw [if_pos halias]
    exact ⟨rfl, rfl, latest, hf, halias⟩
  · rw [if_neg halias]
    exact ⟨rfl, rfl, latest, hf, rfl⟩

theorem processTarget_stable {env : Env} {os vk : String} {meta : TargetMeta} {st : St}
    {meta' : TargetMeta} {st₂ : St}
    (h : processTarget env os vk meta st = .ok (meta', st₂)) :
    ∀ stB : St, pvAt stB.pv os vk = pvAt st₂.pv os vk →
      processTarget env os vk meta' stB = .ok (meta', stB) := by
  obtain ⟨latest, pv', upd', hf, ha, hm, hs⟩ := processTarget_inv h
  intro stB hagree
  have hbase : meta'.base = meta.base := by
    subst hm
    by_cases halias : meta.alias_patch = some latest
    · rw [if_pos halias]
    · rw [if_neg halias]
  have hpkgs : meta'.packages = meta.packages := by
    subst hm
    by_cases halias : meta.alias_patch = some latest
    · rw [if_pos halias]
    · rw [if_neg halias]
  have halias' : meta'.alias_patch = some latest := by
    subst hm
    by_cases halias : meta.alias_patch = some latest
    · rw [if_pos halias]
      exact halias
    · rw [if_neg halias]
  have hsome : (pvAt stB.pv os vk).isSome = true := by
    rw [hagree, hs]
    exact applyFetched_pvAt_isSome os vk _ _ _ _ _ _ ha
      (pvAt_pvEnsure_isSome st.pv os vk)
  have hens : pvEnsure stB.pv os vk = stB.pv := by
    cases hd : pvAt stB.pv os vk with
    | none => rw [hd] at hsome; cases hsome
    | some d => exact pvEnsure_eq_self hd
  have hagree' : pvAt stB.pv os vk = pvAt pv' os vk := by
    rw [hagree, hs]
  have hstab := applyFetched_stable os vk (packageToBucket meta.packages) _ _ _ _ _
    ha (fetched_truthyKeys_nodup env os meta.base (allPackages meta.packages))
    stB.pv stB.pkgUpd hagree'
  have := processTarget_eq env os vk meta' stB
    (by rw [hbase]; exact hf)
    (by rw [hbase, hpkgs, hens]; exact hstab)
  rw [this, if_pos halias', if_pos halias']

theorem processTarget_skip {env : Env} {os vk : String} {meta : TargetMeta} {st : St}
    {meta' : TargetMeta} {st' : St} {pkg : String}
    (h : processTarget env os vk meta st = .ok (meta', st'))
    (hg : dictGet pkg (fetch_all_package_versions env os meta.base
            (allPackages meta.packages)) = some none) :
    (∀ b, pvGet st'.pv os vk b pkg = pvGet st.pv os vk b pkg) ∧
    dictGet (os, vk, pkg) st'.pkgUpd = dictGet (os, vk, pkg) st.pkgUpd := by
  obtain ⟨latest, pv', upd', hf, ha, hm, hs⟩ := processTarget_inv h
  subst hs
  obtain ⟨h1, h2⟩ := applyFetched_skip os vk _ _ _ _ _ _ ha pkg
    (fetched_not_truthy_of_get_none hg)
  constructor
  · intro b
    show pvGet pv' os vk b pkg = pvGet st.pv os vk b pkg
    rw [h1 b]
    exact pvGet_pvEnsure st.pv os vk os vk b pkg
  · exact h2

theorem processTarget_allFail (env : Env) (os vk : String) (meta : TargetMeta) (st : St)
    (hf : ∃ latest, fetch_latest_tag env os meta.base = .ok latest)
    (hq : ∃ e0, env.runQuery os meta.base (allPackages meta.packages) = .error e0) :
    ∃ meta' st', processTarget env os vk meta st = .ok (meta', st') ∧
      st'.pkgUpd = st.pkgUpd ∧
      (∀ os₂ vk₂ b p, pvGet st'.pv os₂ vk₂ b p = pvGet st.pv os₂ vk₂ b p) := by
  obtain ⟨latest, hf⟩ := hf
  have hall := fetched_allNone_of_error env os meta.base (allPackages meta.packages) hq
  have ha := applyFetched_allNone os vk (packageToBucket meta.packages) _
    (pvEnsure st.pv os vk) st.pkgUpd hall
  refine ⟨_, _, processTarget_eq env os vk meta st hf ha, rfl, ?_⟩
  intro os₂ vk₂ b p
  exact pvGet_pvEnsure st.pv os vk os₂ vk₂ b p

theorem fetch_latest_tag_norepo (env : Env) {os : String} (pre : String)
    (h : dictGet os DOCKER_HUB_REPOS = none) :
    fetch_latest_tag env os pre = .ok pre := by
  unfold fetch_latest_tag
  rw [h]
  rfl

theorem processTarget_norepo {env : Env} {os vk : String} {meta : TargetMeta} {st : St}
    {meta' : TargetMeta} {st' : St}
    (h : processTarget env os vk meta st = .ok (meta', st'))
    (hrepo : dictGet os DOCKER_HUB_REPOS = none) :
    meta'.alias_patch = some meta'.base := by
  obtain ⟨hbase, _, latest, hf, halias⟩ := processTarget_meta h
  rw [fetch_latest_tag_norepo env meta.base hrepo] at hf
  injection hf with hlat
  rw [halias, hbase, hlat]

/-- Only the `alias_patch` field of a target may change. -/
def eraseMeta (m : TargetMeta) : TargetMeta := { m with alias_patch := none }

def eraseAliasV (vs : List (String × TargetMeta)) : List (String × TargetMeta) :=
  vs.map (fun vm => (vm.1, eraseMeta vm.2))

def eraseAlias (ts : Targets) : Targets :=
  ts.map (fun osvs => (osvs.1, eraseAliasV osvs.2))

theorem processTarget_erase {env : Env} {os vk : String} {meta : TargetMeta} {st : St}
    {meta' : TargetMeta} {st' : St}
    (h : processTarget env os vk meta st = .ok (meta', st')) :
    eraseMeta meta' = eraseMeta meta := by
  obtain ⟨latest, pv', upd', hf, ha, hm, hs⟩ := processTarget_inv h
  subst hm
  by_cases halias : meta.alias_patch = some latest
  · rw [if_pos halias]
  · rw [if_neg halias]
    rfl

/-! ## `processVersions` lemmas -/

/-- The targets document comes from a JSON object, so its keys are distinct. -/
def versionsWF (vs : List (String × TargetMeta)) : Prop := (vs.map Prod.fst).Nodup

def targetsWF (ts : Targets) : Prop :=
  (ts.map Prod.fst).Nodup ∧ ∀ p ∈ ts, (p.2.map Prod.fst).Nodup

instance (vs : List (String × TargetMeta)) : Decidable (versionsWF vs) := by
  unfold versionsWF
  infer_instance

instance (ts : Targets) : Decidable (targetsWF ts) := by
  unfold targetsWF
  exact instDecidableAnd

theorem processVersions_frame {env : Env} {os : String} :
    ∀ {vs : List (String × TargetMeta)} {st : St} {vs' : List (String × TargetMeta)}
      {st' : St},
      processVersions env os vs st = .ok (vs', st') →
      ∀ os₂ vk₂, (os₂ ≠ os ∨ vk₂ ∉ vs.map Prod.fst) →
      pvAt st'.pv os₂ vk₂ = pvAt st.pv os₂ vk₂ ∧
      (∀ p, dictGet (os₂, vk₂, p) st'.pkgUpd = dictGet (os₂, vk₂, p) st.pkgUpd) := by
  intro vs
  induction vs with
  | nil =>
    intro st vs' st' h os₂ vk₂ hcond
    injection h with h1
    injection h1 with h2 h3
    subst h3
    exact ⟨rfl, fun _ => rfl⟩
  | cons hd rest ih =>
    obtain ⟨vk, meta⟩ := hd
    intro st vs' st' h os₂ vk₂ hcond
    simp only [processVersions] at h
    cases ht : processTarget env os vk meta st with
    | error e => rw [ht] at h; exact Except.noConfusion h
    | ok pr =>
      obtain ⟨meta', st₁⟩ := pr
      simp only [ht] at h
      cases hr : processVersions env os rest st₁ with
      | error e => rw [hr] at h; exact Except.noConfusion h
      | ok pr2 =>
        obtain ⟨rest', st₂⟩ := pr2
        simp only [hr] at h
        injection h with h1
        injection h1 with h2 h3
        subst h3
        have hne : ¬(os = os₂ ∧ vk = vk₂) := by
          rintro ⟨rfl, rfl⟩
          rcases hcond with hc | hc
          · exact hc rfl
          · exact hc (by simp)
        obtain ⟨f1, f2⟩ := processTarget_frame ht hne
        have hcond' : os₂ ≠ os ∨ vk₂ ∉ rest.map Prod.fst := by
          rcases hcond with hc | hc
          · exact Or.inl hc
          · right
            intro hmem
            exact hc (by simp [hmem])
        obtain ⟨g1, g2⟩ := ih hr os₂ vk₂ hcond'
        exact ⟨g1.trans f1, fun p => (g2 p).trans (f2 p)⟩

theorem processVersions_stable {env : Env} {os : String} :
    ∀ {vs : List (String × TargetMeta)} {st : St} {vs' : List (String × TargetMeta)}
      {st₂ : St},
      processVersions env os vs st = .ok (vs', st₂) →
      versionsWF vs →
      ∀ stB : St, (∀ vk ∈ vs.map Prod.fst, pvAt stB.pv os vk = pvAt st₂.pv os vk) →
      processVersions env os vs' stB = .ok (vs', stB) := by
  intro vs
  induction vs with
  | nil =>
    intro st vs' st₂ h _ stB _
    injection h with h1
    injection h1 with h2 h3
    subst h2
    rfl
  | cons hd rest ih =>
    obtain ⟨vk, meta⟩ := hd
    intro st vs' st₂ h hwf stB hagree
    simp only [processVersions] at h
    cases ht : processTarget env os vk meta st with
    | error e => rw [ht] at h; exact Except.noConfusion h
    | ok pr =>
      obtain ⟨meta', st₁⟩ := pr
      simp only [ht] at h
      cases hr : processVersions env os rest st₁ with
      | error e => rw [hr] at h; exact Except.noConfusion h
      | ok pr2 =>
        obtain ⟨rest', st₂'⟩ := pr2
        simp only [hr] at h
        injection h with h1
        injection h1 with h2 h3
        subst h3
        subst h2
        unfold versionsWF at hwf
        simp only [List.map_cons, List.nodup_cons] at hwf
        have hagree_vk := hagree vk (by simp)
        have hfr := (processVersions_frame hr os vk (Or.inr hwf.1)).1
        have hstab := processTarget_stable ht stB (by rw [hagree_vk]; exact hfr)
        have hrec := ih hr hwf.2 stB (fun vk' hmem => hagree vk' (by simp [hmem]))
        simp only [processVersions, hstab, hrec]

theorem processVersions_skip {env : Env} {os : String} :
    ∀ {vs : List (String × TargetMeta)} {st : St} {vs' : List (String × TargetMeta)}
      {st' : St},
      processVersions env os vs st = .ok (vs', st') →
      versionsWF vs →
      ∀ {vk : String} {meta : TargetMeta}, (vk, meta) ∈ vs →
      ∀ {pkg : String}, dictGet pkg (fetch_all_package_versions env os meta.base
          (allPackages meta.packages)) = some none →
      (∀ b, pvGet st'.pv os vk b pkg = pvGet st.pv os vk b pkg) ∧
      dictGet (os, vk, pkg) st'.pkgUpd = dictGet (os, vk, pkg) st.pkgUpd := by
  intro vs
  induction vs with
  | nil =>
    intro st vs' st' h _ vk meta hmem
    cases hmem
  | cons hd rest ih =>
    obtain ⟨vk₀, meta₀⟩ := hd
    intro st vs' st' h hwf vk meta hmem pkg hg
    simp only [processVersions] at h
    cases ht : processTarget env os vk₀ meta₀ st with
    | error e => rw [ht] at h; exact Except.noConfusion h
    | ok pr =>
      obtain ⟨meta', st₁⟩ := pr
      simp only [ht] at h
      cases hr : processVersions env os rest st₁ with
      | error e => rw [hr] at h; exact Except.noConfusion h
      | ok pr2 =>
        obtain ⟨rest', st₂'⟩ := pr2
        simp only [hr] at h
        injection h with h1
        injection h1 with h2 h3
        subst h3
        unfold versionsWF at hwf
        simp only [List.map_cons, List.nodup_cons] at hwf
        rcases List.mem_cons.1 hmem with h1 | h1
        · -- the head is the target in question
          injection h1 with hvk hmeta
          subst hvk
          subst hmeta
          obtain ⟨s1, s2⟩ := processTarget_skip ht hg
          have hfr := processVersions_frame hr os vk (Or.inr hwf.1)
          constructor
          · intro b
            rw [pvGet_congr hfr.1 b pkg]
            exact s1 b
          · rw [hfr.2 pkg]
            exact s2
        · -- the target is further down the list
          have hvk : vk₀ ≠ vk := by
            intro he
            subst he
            exact hwf.1 (by
              have : vk₀ ∈ rest.map Prod.fst := List.mem_map.2 ⟨(vk₀, meta), h1, rfl⟩
              exact this)
          obtain ⟨f1, f2⟩ := processTarget_frame ht (by rintro ⟨_, hc⟩; exact hvk hc)
          obtain ⟨g1, g2⟩ := ih hr hwf.2 h1 hg
          constructor
          · intro b
            rw [g1 b]
            exact pvGet_congr f1 b pkg
          · rw [g2]
            exact f2 pkg

theorem processVersions_allFail {env : Env} {os : String} :
    ∀ {vs : List (String × TargetMeta)} (st : St),
      (∀ vm ∈ vs, (∃ latest, fetch_latest_tag env os vm.2.base = .ok latest) ∧
        (∃ e0, env.runQuery os vm.2.base (allPackages vm.2.packages) = .error e0)) →
      ∃ vs' st', processVersions env os vs st = .ok (vs', st') ∧
        st'.pkgUpd = st.pkgUpd ∧
        (∀ os₂ vk₂ b p, pvGet st'.pv os₂ vk₂ b p = pvGet st.pv os₂ vk₂ b p) := by
  intro vs
  induction vs with
  | nil =>
    intro st _
    exact ⟨[], st, rfl, rfl, fun _ _ _ _ => rfl⟩
  | cons hd rest ih =>
    obtain ⟨vk, meta⟩ := hd
    intro st hall
    obtain ⟨meta', st₁, ht, hupd, hpv⟩ := processTarget_allFail env os vk meta st
      (hall (vk, meta) (by simp)).1 (hall (vk, meta) (by simp)).2
    obtain ⟨rest', st₂, hr, hupd2, hpv2⟩ := ih st₁
      (fun vm hm => hall vm (List.mem_cons_of_mem _ hm))
    refine ⟨(vk, meta') :: rest', st₂, ?_, hupd2.trans hupd,
      fun os₂ vk₂ b p => (hpv2 os₂ vk₂ b p).trans (hpv os₂ vk₂ b p)⟩
    simp only [processVersions, ht, hr]

theorem processVersions_erase {env : Env} {os : String} :
    ∀ {vs : List (String × TargetMeta)} {st : St} {vs' : List (String × TargetMeta)}
      {st' : St},
      processVersions env os vs st = .ok (vs', st') → eraseAliasV vs' = eraseAliasV vs := by
  intro vs
  induction vs with
  | nil =>
    intro st vs' st' h
    injection h with h1
    injection h1 with h2 h3
    subst h2
    rfl
  | cons hd rest ih =>
    obtain ⟨vk, meta⟩ := hd
    intro st vs' st' h
    simp only [processVersions] at h
    cases ht : processTarget env os vk meta st with
    | error e => rw [ht] at h; exact Except.noConfusion h
    | ok pr =>
      obtain ⟨meta', st₁⟩ := pr
      simp only [ht] at h
      cases hr : processVersions env os rest st₁ with
      | error e => rw [hr] at h; exact Except.noConfusion h
      | ok pr2 =>
        obtain ⟨rest', st₂'⟩ := pr2
        simp only [hr] at h
        injection h with h1
        injection h1 with h2 h3
        subst h2
        simp only [eraseAliasV, List.map_cons]
        rw [processTarget_erase ht]
        have := ih hr
        simp only [eraseAliasV] at this
        rw [this]

theorem processVersions_norepo {env : Env} {os : String}
    (hrepo : dictGet os DOCKER_HUB_REPOS = none) :
    ∀ {vs : List (String × TargetMeta)} {st : St} {vs' : List (String × TargetMeta)}
      {st' : St},
      processVersions env os vs st = .ok (vs', st') →
      ∀ vm ∈ vs', vm.2.alias_patch = some vm.2.base := by
  intro vs
  induction vs with
  | nil =>
    intro st vs' st' h vm hmem
    injection h with h1
    injection h1 with h2 h3
    subst h2
    cases hmem
  | cons hd rest ih =>
    obtain ⟨vk, meta⟩ := hd
    intro st vs' st' h vm hmem
    simp only [processVersions] at h
    cases ht : processTarget env os vk meta st with
    | error e => rw [ht] at h; exact Except.noConfusion h
    | ok pr =>
      obtain ⟨meta', st₁⟩ := pr
      simp only [ht] at h
      cases hr : processVersions env os rest st₁ with
      | error e => rw [hr] at h; exact Except.noConfusion h
      | ok pr2 =>
        obtain ⟨rest', st₂'⟩ := pr2
        simp only [hr] at h
        injection h with h1
        injection h1 with h2 h3
        subst h2
        rcases List.mem_cons.1 hmem with h1 | h1
        · subst h1
          exact processTarget_norepo ht hrepo
        · exact ih hr vm h1

/-! ## `processTargets` lemmas -/

theorem processTargets_frame {env : Env} :
    ∀ {ts : Targets} {st : St} {ts' : Targets} {st' : St},
      processTargets env ts st = .ok (ts', st') →
      ∀ os₂, os₂ ∉ ts.map Prod.fst →
      ∀ vk₂, pvAt st'.pv os₂ vk₂ = pvAt st.pv os₂ vk₂ ∧
      (∀ p, dictGet (os₂, vk₂, p) st'.pkgUpd = dictGet (os₂, vk₂, p) st.pkgUpd) := by
  intro ts
  induction ts with
  | nil =>
    intro st ts' st' h os₂ _ vk₂
    injection h with h1
    injection h1 with h2 h3
    subst h3
    exact ⟨rfl, fun _ => rfl⟩
  | cons hd rest ih =>
    obtain ⟨os, vs⟩ := hd
    intro st ts' st' h os₂ hmem vk₂
    simp only [processTargets] at h
    cases hv : processVersions env os vs st with
    | error e => rw [hv] at h; exact Except.noConfusion h
    | ok pr =>
      obtain ⟨vs', st₁⟩ := pr
      simp only [hv] at h
      cases hr : processTargets env rest st₁ with
      | error e => rw [hr] at h; exact Except.noConfusion h
      | ok pr2 =>
        obtain ⟨rest', st₂⟩ := pr2
        simp only [hr] at h
        injection h with h1
        injection h1 with h2 h3
        subst h3
        simp only [List.map_cons, List.mem_cons, not_or] at hmem
        obtain ⟨f1, f2⟩ := processVersions_frame hv os₂ vk₂ (Or.inl hmem.1)
        obtain ⟨g1, g2⟩ := ih hr os₂ hmem.2 vk₂
        exact ⟨g1.trans f1, fun p => (g2 p).trans (f2 p)⟩

theorem processTargets_stable {env : Env} :
    ∀ {ts : Targets} {st : St} {ts' : Targets} {st₂ : St},
      processTargets env ts st = .ok (ts', st₂) →
      targetsWF ts →
      ∀ stB : St, (∀ os ∈ ts.map Prod.fst, ∀ vk, pvAt stB.pv os vk = pvAt st₂.pv os vk) →
      processTargets env ts' stB = .ok (ts', stB) := by
  intro ts
  induction ts with
  | nil =>
    intro st ts' st₂ h _ stB _
    injection h with h1
    injection h1 with h2 h3
    subst h2
    rfl
  | cons hd rest ih =>
    obtain ⟨os, vs⟩ := hd
    intro st ts' st₂ h hwf stB hagree
    simp only [processTargets] at h
    cases hv : processVersions env os vs st with
    | error e => rw [hv] at h; exact Except.noConfusion h
    | ok pr =>
      obtain ⟨vs', st₁⟩ := pr
      simp only [hv] at h
      cases hr : processTargets env rest st₁ with
      | error e => rw [hr] at h; exact Except.noConfusion h
      | ok pr2 =>
        obtain ⟨rest', st₂'⟩ := pr2
        simp only [hr] at h
        injection h with h1
        injection h1 with h2 h3
        subst h3
        subst h2
        obtain ⟨hnd, hball⟩ := hwf
        simp only [List.map_cons, List.nodup_cons] at hnd
        have hvwf : versionsWF vs := hball (os, vs) (by simp)
        have hstab := processVersions_stable hv hvwf stB (fun vk hmem => by
          rw [hagree os (by simp) vk]
          exact (processTargets_frame hr os hnd.1 vk).1)
        have hrec := ih hr ⟨hnd.2, fun p hp => hball p (List.mem_cons_of_mem _ hp)⟩
          stB (fun os' hmem vk => hagree os' (by simp [hmem]) vk)
        simp only [processTargets, hstab, hrec]

theorem processTargets_skip {env : Env} :
    ∀ {ts : Targets} {st : St} {ts' : Targets} {st' : St},
      processTargets env ts st = .ok (ts', st') →
      targetsWF ts →
      ∀ {os : String} {vs : List (String × TargetMeta)}, (os, vs) ∈ ts →
      ∀ {vk : String} {meta : TargetMeta}, (vk, meta) ∈ vs →
      ∀ {pkg : String}, dictGet pkg (fetch_all_package_versions env os meta.base
          (allPackages meta.packages)) = some none →
      (∀ b, pvGet st'.pv os vk b pkg = pvGet st.pv os vk b pkg) ∧
      dictGet (os, vk, pkg) st'.pkgUpd = dictGet (os, vk, pkg) st.pkgUpd := by
  intro ts
  induction ts with
  | nil =>
    intro st ts' st' h _ os vs hmem
    cases hmem
  | cons hd rest ih =>
    obtain ⟨os₀, vs₀⟩ := hd
    intro st ts' st' h hwf os vs hmem vk meta hvm pkg hg
    simp only [processTargets] at h
    cases hv : processVersions env os₀ vs₀ st with
    | error e => rw [hv] at h; exact Except.noConfusion h
    | ok pr =>
      obtain ⟨vs', st₁⟩ := pr
      simp only [hv] at h
      cases hr : processTargets env rest st₁ with
      | error e => rw [hr] at h; exact Except.noConfusion h
      | ok pr2 =>
        obtain ⟨rest', st₂'⟩ := pr2
        simp only [hr] at h
        injection h with h1
        injection h1 with h2 h3
        subst h3
        obtain ⟨hnd, hball⟩ := hwf
        simp only [List.map_cons, List.nodup_cons] at hnd
        rcases List.mem_cons.1 hmem with h1 | h1
        · -- the head holds the (os, vs) block
          injection h1 with hos hvs
          subst hos
          subst hvs
          obtain ⟨s1, s2⟩ := processVersions_skip hv (hball (os, vs) (by simp)) hvm hg
          have hfr := processTargets_frame hr os hnd.1 vk
          constructor
          · intro b
            rw [pvGet_congr hfr.1 b pkg]
            exact s1 b
          · rw [hfr.2 pkg]
            exact s2
        · -- the block is further down the list
          have hos : os₀ ≠ os := by
            intro he
            subst he
            exact hnd.1 (List.mem_map.2 ⟨(os₀, vs), h1, rfl⟩)
          obtain ⟨f1, f2⟩ := processVersions_frame hv os vk (Or.inl (Ne.symm hos))
          obtain ⟨g1, g2⟩ := ih hr ⟨hnd.2, fun p hp => hball p (List.mem_cons_of_mem _ hp)⟩
            h1 hvm hg
          constructor
          · intro b
            rw [g1 b]
            exact pvGet_congr f1 b pkg
          · rw [g2]
            exact f2 pkg

theorem processTargets_allFail {env : Env} :
    ∀ {ts : Targets} (st : St),
      (∀ osvs ∈ ts, ∀ vm ∈ osvs.2,
        (∃ latest, fetch_latest_tag env osvs.1 vm.2.base = .ok latest) ∧
        (∃ e0, env.runQuery osvs.1 vm.2.base (allPackages vm.2.packages) = .error e0)) →
      ∃ ts' st', processTargets env ts st = .ok (ts', st') ∧
        st'.pkgUpd = st.pkgUpd ∧
        (∀ os₂ vk₂ b p, pvGet st'.pv os₂ vk₂ b p = pvGet st.pv os₂ vk₂ b p) := by
  intro ts
  induction ts with
  | nil =>
    intro st _
    exact ⟨[], st, rfl, rfl, fun _ _ _ _ => rfl⟩
  | cons hd rest ih =>
    obtain ⟨os, vs⟩ := hd
    intro st hall
    obtain ⟨vs', st₁, hv, hupd, hpv⟩ := processVersions_allFail st
      (fun vm hm => hall (os, vs) (by simp) vm hm)
    obtain ⟨rest', st₂, hr, hupd2, hpv2⟩ := ih st₁
      (fun osvs hm vm hvm => hall osvs (List.mem_cons_of_mem _ hm) vm hvm)
    refine ⟨(os, vs') :: rest', st₂, ?_, hupd2.trans hupd,
      fun os₂ vk₂ b p => (hpv2 os₂ vk₂ b p).trans (hpv os₂ vk₂ b p)⟩
    simp only [processTargets, hv, hr]

theorem processTargets_erase {env : Env} :
    ∀ {ts : Targets} {st : St} {ts' : Targets} {st' : St},
      processTargets env ts st = .ok (ts', st') → eraseAlias ts' = eraseAlias ts := by
  intro ts
  induction ts with
  | nil =>
    intro st ts' st' h
    injection h with h1
    injection h1 with h2 h3
    subst h2
    rfl
  | cons hd rest ih =>
    obtain ⟨os, vs⟩ := hd
    intro st ts' st' h
    simp only [processTargets] at h
    cases hv : processVersions env os vs st with
    | error e => rw [hv] at h; exact Except.noConfusion h
    | ok pr =>
      obtain ⟨vs', st₁⟩ := pr
      simp only [hv] at h
      cases hr : processTargets env rest st₁ with
      | error e => rw [hr] at h; exact Except.noConfusion h
      | ok pr2 =>
        obtain ⟨rest', st₂'⟩ := pr2
        simp only [hr] at h
        injection h with h1
        injection h1 with h2 h3
        subst h2
        simp only [eraseAlias, List.map_cons]
        rw [processVersions_erase hv]
        have := ih hr
        simp only [eraseAlias] at this
        rw [this]

theorem processTargets_norepo {env : Env} :
    ∀ {ts : Targets} {st : St} {ts' : Targets} {st' : St},
      processTargets env ts st = .ok (ts', st') →
      ∀ osvs ∈ ts', dictGet osvs.1 DOCKER_HUB_REPOS = none →
      ∀ vm ∈ osvs.2, vm.2.alias_patch = some vm.2.base := by
  intro ts
  induction ts with
  | nil =>
    intro st ts' st' h osvs hmem
    injection h with h1
    injection h1 with h2 h3
    subst h2
    cases hmem
  | cons hd rest ih =>
    obtain ⟨os, vs⟩ := hd
    intro st ts' st' h osvs hmem hrepo vm hvm
    simp only [processTargets] at h
    cases hv : processVersions env os vs st with
    | error e => rw [hv] at h; exact Except.noConfusion h
    | ok pr =>
      obtain ⟨vs', st₁⟩ := pr
      simp only [hv] at h
      cases hr : processTargets env rest st₁ with
      | error e => rw [hr] at h; exact Except.noConfusion h
      | ok pr2 =>
        obtain ⟨rest', st₂'⟩ := pr2
        simp only [hr] at h
        injection h with h1
        injection h1 with h2 h3
        subst h2
        rcases List.mem_cons.1 hmem with h1 | h1
        · subst h1
          exact processVersions_norepo hrepo hv vm hvm
        · exact ih hr osvs h1 hrepo vm hvm

/-! ## `update_manifest` inversion -/

theorem update_manifest_inv {env : Env} {now : String} {m : Manifest} {pv : PkgVersions}
    {m' : Manifest} {pv' : PkgVersions} {r : UpdateResult}
    (h : update_manifest env now m pv = .ok (m', pv', r)) :
    ∃ ts' st, processTargets env m.targets ⟨pv, [], []⟩ = .ok (ts', st) ∧
      m' = { m with
             targets := ts',
             metadata := (if !(st.aliasUpd.isEmpty && st.pkgUpd.isEmpty)
                          then dictInsert "last_updated" now m.metadata
                          else m.metadata) } ∧
      pv' = st.pv ∧
      r = ⟨st.aliasUpd, st.pkgUpd, !(st.aliasUpd.isEmpty && st.pkgUpd.isEmpty)⟩ := by
  unfold update_manifest at h
  cases hp : processTargets env m.targets ⟨pv, [], []⟩ with
  | error e => rw [hp] at h; exact Except.noConfusion h
  | ok pr =>
    obtain ⟨ts', st⟩ := pr
    simp only [hp] at h
    injection h with h1
    injection h1 with h2 h3
    injection h3 with h4 h5
    exact ⟨ts', st, rfl, h2.symm, h4.symm, h5.symm⟩

theorem update_manifest_eq (env : Env) (now : String) (m : Manifest) (pv : PkgVersions)
    {ts' : Targets} {st : St}
    (hp : processTargets env m.targets ⟨pv, [], []⟩ = .ok (ts', st)) :
    update_manifest env now m pv =
      .ok ({ m with
             targets := ts',
             metadata := (if !(st.aliasUpd.isEmpty && st.pkgUpd.isEmpty)
                          then dictInsert "last_updated" now m.metadata
                          else m.metadata) },
           st.pv,
           ⟨st.aliasUpd, st.pkgUpd, !(st.aliasUpd.isEmpty && st.pkgUpd.isEmpty)⟩) := by
  unfold update_manifest
  simp only [hp]

/-! ## Concrete fixtures used by the witnesses and counterexamples -/

def metaAlp : TargetMeta :=
  { base := "3.19", alias_patch := some "3.19.8",
    packages := [("engine", ["docker"]), ("tools", ["bash"])] }

def metaUb : TargetMeta :=
  { base := "24.04", alias_patch := none,
    packages := [("engine", ["docker-ce"])] }

def mW : Manifest :=
  { version := "1.2.3", docker_compose_version := "2.29.0",
    targets := [("alpine", [("3.19", metaAlp)]), ("ubuntu", [("24.04", metaUb)])],
    channels := [("stable", ⟨"alpine", "3.19", "docker"⟩)],
    metadata := [("last_updated", "2024-01-01T00:00:00Z")] }

/-- A healthy environment: the alpine tag listing answers, the alpine
container run answers, the ubuntu container run fails. -/
def envW : Env :=
  { listTags := fun repo _ =>
      if repo = "library/alpine" then .ok ["3.19.9", "3.19.8", "latest"] else .ok [],
    runQuery := fun os _ _ =>
      if os = "alpine" then .ok "docker=26.1.0\nbash=5.2.21" else .error "no env" }

def metaAlp1 : TargetMeta :=
  { base := "3.19", alias_patch := some "3.19.9",
    packages := [("engine", ["docker"]), ("tools", ["bash"])] }

def metaUb1 : TargetMeta :=
  { base := "24.04", alias_patch := some "24.04",
    packages := [("engine", ["docker-ce"])] }

/-- The manifest produced by reconciling `mW` under `envW`. -/
def m1W : Manifest :=
  { version := "1.2.3", docker_compose_version := "2.29.0",
    targets := [("alpine", [("3.19", metaAlp1)]), ("ubuntu", [("24.04", metaUb1)])],
    channels := [("stable", ⟨"alpine", "3.19", "docker"⟩)],
    metadata := [("last_updated", "T1")] }

def pv1W : PkgVersions :=
  [("alpine", [("3.19", [("engine", [("docker", "26.1.0")]),
                         ("tools", [("bash", "5.2.21")])])]),
   ("ubuntu", [("24.04", [])])]

def r1W : UpdateResult :=
  { alias_updates := [(("alpine", "3.19"), "3.19.9"), (("ubuntu", "24.04"), "24.04")],
    package_updates := [(("alpine", "3.19", "docker"), "26.1.0"),
                        (("alpine", "3.19", "bash"), "5.2.21")],
    manifest_version_bumped := true }

/-- A tag listing holding a version tag with a leading zero in a component. -/
def envC6 : Env :=
  { listTags := fun _ _ => .ok ["3.09"], runQuery := fun _ _ _ => .error "na" }

/-- A registry whose tag listing suffers a transport failure while the
container runs still answer. -/
def envC1 : Env :=
  { listTags := fun _ _ => .error "transport failure",
    runQuery := fun os _ _ => if os = "alpine" then .ok "docker=26.1.0" else .error "no env" }

/-- A healthy registry but failing container runs for every target. -/
def envC1W : Env :=
  { listTags := fun _ _ => .ok [], runQuery := fun _ _ _ => .error "boom" }

/-- An environment in which the alpine `docker` package resolves to null
(empty candidate output) while `bash` resolves. -/
def envW4 : Env :=
  { listTags := fun repo _ =>
      if repo = "library/alpine" then .ok ["3.19.9", "3.19.8", "latest"] else .ok [],
    runQuery := fun os _ _ =>
      if os = "alpine" then .ok "docker=\nbash=5.2.21" else .error "no env" }

/-- A stored version for `docker` that must survive a null resolution. -/
def pvW4 : PkgVersions := [("alpine", [("3.19", [("engine", [("docker", "26.0.5")])])])]

def m4W : Manifest :=
  { version := "1.2.3", docker_compose_version := "2.29.0",
    targets := [("alpine", [("3.19", metaAlp1)]), ("ubuntu", [("24.04", metaUb1)])],
    channels := [("stable", ⟨"alpine", "3.19", "docker"⟩)],
    metadata := [("last_updated", "T1")] }

def pv4W : PkgVersions :=
  [("alpine", [("3.19", [("engine", [("docker", "26.0.5")]),
                         ("tools", [("bash", "5.2.21")])])]),
   ("ubuntu", [("24.04", [])])]

def r4W : UpdateResult :=
  { alias_updates := [(("alpine", "3.19"), "3.19.9"), (("ubuntu", "24.04"), "24.04")],
    package_updates := [(("alpine", "3.19", "bash"), "5.2.21")],
    manifest_version_bumped := true }

/-- A retag subprocess that is rate-limited on the first two attempts and
succeeds on the third. -/
def runC7 : Nat → Nat × String :=
  fun n => if n = 3 then (0, "") else (1, "429 Too Many Requests")

/-- Working package versions holding only the non-significant `bash`. -/
def cv5 : PkgVersions := [("alpine", [("3.19", [("tools", [("bash", "5.2.21")])])])]

/-- Baseline package versions with a different `bash` version. -/
def pv5 : PkgVersions := [("alpine", [("3.19", [("tools", [("bash", "5.0")])])])]

/-- A working targets document with nothing to report. -/
def ct8 : Manifest :=
  { version := "1.0.0", docker_compose_version := "", targets := [],
    channels := [], metadata := [] }

/-! ## Claims -/

/-- Claim C6 as stated is falsified by normalization: every candidate tag in
the listing is `"3.09"`, which is therefore the maximum of the candidates by
semantic version ordering, yet `fetch_latest_tag` returns `"3.9"` — the
canonical rendering `str(Version("3.09"))` — which is not a candidate. -/
theorem spec_c6_counterexample :
    (["3.09"].filter (fun t => strStartsWith t "3" && versionPatternMatch t)) = ["3.09"] ∧
    fetch_latest_tag envC6 "alpine" "3" = .ok "3.9" ∧
    "3.9" ≠ "3.09" := by
  refine ⟨rfl, rfl, ?_⟩
  decide

/-- Claim C6, amended: for an OS with a configured upstream repository and a
listing that answers, `fetch_latest_tag` filters the listing to tags that
start with the prefix and match the strict numeric dotted pattern; with no
candidate it returns the prefix unchanged without failing; otherwise it
returns the canonical rendering (leading zeros of numeric components
stripped) of a maximal candidate under semantic version ordering. -/
theorem spec_c6 (env : Env) (os p repo : String) (tags : List String)
    (hrepo : dictGet os DOCKER_HUB_REPOS = some repo) (hrepo' : repo ≠ "")
    (htags : env.listTags repo p = Except.ok tags) :
    (∀ t, t ∈ tags.filter (fun t => strStartsWith t p && versionPatternMatch t) ↔
        (t ∈ tags ∧ strStartsWith t p = true ∧ versionPatternMatch t = true)) ∧
    (tags.filter (fun t => strStartsWith t p && versionPatternMatch t) = [] →
      fetch_latest_tag env os p = .ok p) ∧
    (∀ c rest,
      tags.filter (fun t => strStartsWith t p && versionPatternMatch t) = c :: rest →
      ∃ m, m ∈ c :: rest ∧
        (∀ x ∈ c :: rest, verLt (parseVersion m) (parseVersion x) = false) ∧
        fetch_latest_tag env os p = .ok (renderVersion (parseVersion m))) := by
  have hfetch : fetch_latest_tag env os p =
      (match tags.filter (fun t => strStartsWith t p && versionPatternMatch t) with
       | [] => .ok p
       | c :: rest => .ok (renderVersion (parseVersion (maxTag c rest)))) := by
    unfold fetch_latest_tag
    rw [hrepo]
    simp only [Option.getD_some]
    rw [if_neg hrepo', htags]
  refine ⟨?_, ?_, ?_⟩
  · intro t
    rw [List.mem_filter]
    simp [Bool.and_eq_true]
  · intro hnil
    rw [hfetch, hnil]
  · intro c rest hfil
    refine ⟨maxTag c rest, maxTag_mem c rest, maxTag_not_lt c rest, ?_⟩
    rw [hfetch, hfil]

theorem spec_c6_witness :
    ∃ m, m ∈ ["3.19.9", "3.19.8"] ∧
      (∀ x ∈ ["3.19.9", "3.19.8"], verLt (parseVersion m) (parseVersion x) = false) ∧
      fetch_latest_tag envW "alpine" "3.19" = .ok (renderVersion (parseVersion m)) :=
  (spec_c6 envW "alpine" "3.19" "library/alpine" ["3.19.9", "3.19.8", "latest"]
    rfl (by decide) rfl).2.2 "3.19.9" ["3.19.8"] rfl

/-- Claim C9: for an OS with no configured upstream repository mapping,
base-alias resolution returns the stored prefix unchanged and is independent
of the registry (no query is performed), and after a reconciliation run every
such target's `alias_patch` equals its configured `base` prefix. -/
theorem spec_c9 :
    (∀ (env₁ env₂ : Env) (os p : String), dictGet os DOCKER_HUB_REPOS = none →
      fetch_latest_tag env₁ os p = .ok p ∧
      fetch_latest_tag env₁ os p = fetch_latest_tag env₂ os p) ∧
    (∀ (env : Env) (now : String) (m m' : Manifest) (pv pv' : PkgVersions)
        (r : UpdateResult),
      update_manifest env now m pv = .ok (m', pv', r) →
      ∀ osvs ∈ m'.targets, dictGet osvs.1 DOCKER_HUB_REPOS = none →
      ∀ vm ∈ osvs.2, vm.2.alias_patch = some vm.2.base) := by
  constructor
  · intro env₁ env₂ os p h
    refine ⟨fetch_latest_tag_norepo env₁ p h, ?_⟩
    rw [fetch_latest_tag_norepo env₁ p h, fetch_latest_tag_norepo env₂ p h]
  · intro env now m m' pv pv' r h osvs hmem hrepo vm hvm
    obtain ⟨ts', st, hp, hm', hpv, hr⟩ := update_manifest_inv h
    subst hm'
    exact processTargets_norepo hp osvs hmem hrepo vm hvm

theorem spec_c9_witness :
    fetch_latest_tag envW "ubuntu" "24.04" = Except.ok "24.04" ∧
    (∀ vm ∈ [("24.04", metaUb1)], vm.2.alias_patch = some vm.2.base) :=
  ⟨(spec_c9.1 envW envW "ubuntu" "24.04" rfl).1,
   spec_c9.2 envW "T1" mW m1W [] pv1W r1W rfl ("ubuntu", [("24.04", metaUb1)])
     (by decide) rfl⟩

/-- Claim C10: a reconciliation run may modify only `alias_patch` fields
inside `targets` and the `metadata.last_updated` key; `version`,
`docker_compose_version`, `channels`, every target's `base` and `packages`,
and every other metadata key are unchanged. -/
theorem spec_c10 (env : Env) (now : String) (m m' : Manifest) (pv pv' : PkgVersions)
    (r : UpdateResult) (h : update_manifest env now m pv = .ok (m', pv', r)) :
    m'.version = m.version ∧
    m'.docker_compose_version = m.docker_compose_version ∧
    m'.channels = m.channels ∧
    eraseAlias m'.targets = eraseAlias m.targets ∧
    ∀ k, k ≠ "last_updated" → dictGet k m'.metadata = dictGet k m.metadata := by
  obtain ⟨ts', st, hp, hm', hpv, hr⟩ := update_manifest_inv h
  subst hm'
  refine ⟨rfl, rfl, rfl, processTargets_erase hp, ?_⟩
  intro k hk
  show dictGet k (if !(st.aliasUpd.isEmpty && st.pkgUpd.isEmpty)
      then dictInsert "last_updated" now m.metadata
      else m.metadata) = dictGet k m.metadata
  by_cases hb : (!(st.aliasUpd.isEmpty && st.pkgUpd.isEmpty)) = true
  · rw [if_pos hb]
    exact dictGet_dictInsert_ne hk now m.metadata
  · rw [if_neg hb]

theorem spec_c10_witness :
    m1W.version = mW.version ∧
    m1W.docker_compose_version = mW.docker_compose_version ∧
    m1W.channels = mW.channels ∧
    eraseAlias m1W.targets = eraseAlias mW.targets ∧
    (∀ k, k ≠ "last_updated" → dictGet k m1W.metadata = dictGet k mW.metadata) :=
  spec_c10 envW "T1" mW m1W [] pv1W r1W rfl

/-- Claim C2: the bump policy (spec-modelled, `bump_version.py` is absent
from the sources) advances exactly the patch component by one when a run
reported updates and leaves the version untouched otherwise; the patch
component never decreases across any sequence of runs; and a reconciliation
run reports an update exactly when it recorded an alias or package update. -/
theorem spec_c2 :
    (∀ (v : Nat × Nat × Nat) (r : UpdateResult),
      (r.manifest_version_bumped = true →
        apply_bump_policy r.manifest_version_bumped v = (v.1, v.2.1, v.2.2 + 1)) ∧
      (r.manifest_version_bumped = false →
        apply_bump_policy r.manifest_version_bumped v = v)) ∧
    (∀ (v : Nat × Nat × Nat) (rs : List UpdateResult),
      v.2.2 ≤ (rs.foldl (fun w r => apply_bump_policy r.manifest_version_bumped w) v).2.2) ∧
    (∀ (env : Env) (now : String) (m m' : Manifest) (pv pv' : PkgVersions)
        (r : UpdateResult),
      update_manifest env now m pv = .ok (m', pv', r) →
      (r.manifest_version_bumped = true ↔
        (r.alias_updates ≠ [] ∨ r.package_updates ≠ []))) := by
  refine ⟨?_, ?_, ?_⟩
  · intro v r
    constructor
    · intro hb
      unfold apply_bump_policy bump_triple
      rw [hb, if_pos rfl]
    · intro hb
      unfold apply_bump_policy
      rw [hb]
      simp
  · intro v rs
    induction rs generalizing v with
    | nil => exact Nat.le_refl _
    | cons r rest ih =>
      simp only [List.foldl_cons]
      refine Nat.le_trans ?_ (ih (apply_bump_policy r.manifest_version_bumped v))
      unfold apply_bump_policy bump_triple
      by_cases hb : r.manifest_version_bumped = true
      · rw [hb, if_pos rfl]
        exact Nat.le_succ _
      · have hb' : r.manifest_version_bumped = false := by
          cases hbb : r.manifest_version_bumped
          · rfl
          · exact absurd hbb hb
        rw [hb']
        simp
  · intro env now m m' pv pv' r h
    obtain ⟨ts', st, hp, hm', hpv, hr⟩ := update_manifest_inv h
    subst hr
    obtain ⟨spv, sa, sp⟩ := st
    cases sa <;> cases sp <;> simp [List.isEmpty]

theorem spec_c2_witness :
    (r1W.manifest_version_bumped = true ↔
      (r1W.alias_updates ≠ [] ∨ r1W.package_updates ≠ [])) ∧
    apply_bump_policy r1W.manifest_version_bumped (1, 2, 3) = (1, 2, 4) :=
  ⟨spec_c2.2.2 envW "T1" mW m1W [] pv1W r1W rfl,
   (spec_c2.1 (1, 2, 3) r1W).1 rfl⟩

/-- Claim C7: the alias re-tag loop retries a rate-limited attempt up to the
fixed bound of 3 with a linear backoff of 30 seconds times the attempt
number; with rate limits on attempts 1 and 2 and success on attempt 3 it
returns success after waiting `30*1 + 30*2` and propagates no error; a
non-rate-limit failure or rate limits on all three attempts abort with the
failing run's result. -/
theorem spec_c7 (run : Nat → Nat × String) :
    (((run 1).1 ≠ 0 ∧ isRateLimit (run 1).2 = true ∧ (run 2).1 ≠ 0 ∧
        isRateLimit (run 2).2 = true ∧ (run 3).1 = 0) →
      retag run = .ok (3, RETRY_DELAY_SECONDS * 1 + RETRY_DELAY_SECONDS * 2)) ∧
    (((run 1).1 ≠ 0 ∧ isRateLimit (run 1).2 = false) →
      retag run = .error (run 1)) ∧
    (((run 1).1 ≠ 0 ∧ isRateLimit (run 1).2 = true ∧ (run 2).1 ≠ 0 ∧
        isRateLimit (run 2).2 = true ∧ (run 3).1 ≠ 0 ∧ isRateLimit (run 3).2 = true) →
      retag run = .error (run 3)) := by
  have hrange : List.range' 1 MAX_RETRIES = [1, 2, 3] := rfl
  refine ⟨?_, ?_, ?_⟩
  · rintro ⟨h1, h1r, h2, h2r, h3⟩
    unfold retag
    rw [hrange]
    simp only [retagLoop]
    rw [if_neg h1, if_pos ⟨h1r, by decide⟩]
    rw [if_neg h2, if_pos ⟨h2r, by decide⟩]
    rw [if_pos h3]
    rfl
  · rintro ⟨h1, h1r⟩
    unfold retag
    rw [hrange]
    simp only [retagLoop]
    rw [if_neg h1, if_neg (by rw [h1r]; simp)]
  · rintro ⟨h1, h1r, h2, h2r, h3, h3r⟩
    unfold retag
    rw [hrange]
    simp only [retagLoop]
    rw [if_neg h1, if_pos ⟨h1r, by decide⟩]
    rw [if_neg h2, if_pos ⟨h2r, by decide⟩]
    rw [if_neg h3, if_neg (by rintro ⟨_, hlt⟩; exact absurd hlt (by decide))]

theorem spec_c7_witness :
    retag runC7 = .ok (3, RETRY_DELAY_SECONDS * 1 + RETRY_DELAY_SECONDS * 2) :=
  (spec_c7 runC7).1 ⟨by decide, by decide, by decide, by decide, by decide⟩

theorem mem_concatMap {α β : Type} (f : α → List β) (l : List α) (x : β) :
    x ∈ concatMap f l ↔ ∃ a ∈ l, x ∈ f a := by
  induction l with
  | nil => simp [concatMap]
  | cons a as ih =>
    simp only [concatMap, List.mem_append, ih, List.mem_cons]
    constructor
    · rintro (hx | ⟨b, hb, hxb⟩)
      · exact ⟨a, Or.inl rfl, hx⟩
      · exact ⟨b, Or.inr hb, hxb⟩
    · rintro ⟨b, hb | hb, hxb⟩
      · subst hb
        exact Or.inl hxb
      · exact Or.inr ⟨b, hb, hxb⟩

theorem concatMap_eq_nil {α β : Type} {f : α → List β} {l : List α}
    (h : ∀ a ∈ l, f a = []) : concatMap f l = [] := by
  induction l with
  | nil => rfl
  | cons a as ih =>
    simp only [concatMap]
    rw [h a (List.mem_cons_self a as), ih (fun x hx => h x (List.mem_cons_of_mem a hx))]
    rfl

/-- Claim C5: a stored-version difference of a package outside the
significant allow-list never produces a change record — every `package`
record the classifier emits names an allow-listed package — and whenever the
two snapshots agree on the compose version, on all alias patches and on all
allow-listed package versions, the classifier reports no changes at all, no
matter how the non-allow-listed stored versions differ. -/
theorem spec_c5 :
    (∀ (ct : Manifest) (cv : PkgVersions) (pt : Option Manifest)
        (pvv : Option PkgVersions),
      ∀ c ∈ check_for_changes ct cv pt pvv,
      ∀ os ver sec pkg old new, c = Change.package os ver sec pkg old new →
        significant_packages.contains pkg = true) ∧
    (∀ (ct : Manifest) (cv : PkgVersions) (pt : Option Manifest)
        (pvv : Option PkgVersions),
      ¬(ct.docker_compose_version ≠ "" ∧
          ct.docker_compose_version ≠ prevCompose pt) →
      (∀ osvs ∈ ct.targets, ∀ vm ∈ osvs.2,
        ¬(vm.2.alias_patch.getD "" ≠ "" ∧
            vm.2.alias_patch.getD "" ≠ prevPatch pt osvs.1 vm.1)) →
      (∀ osvs ∈ cv, osvs.1 ≠ "docker_compose_version" →
        ∀ vsec ∈ osvs.2, ∀ spk ∈ vsec.2, ∀ pkv ∈ spk.2,
        significant_packages.contains pkv.1 = true →
        prevPkg pvv osvs.1 vsec.1 spk.1 pkv.1 = some pkv.2) →
      check_for_changes ct cv pt pvv = []) := by
  constructor
  · intro ct cv pt pvv c hc os ver sec pkg old new hpkg
    subst hpkg
    unfold check_for_changes at hc
    rcases List.mem_append.1 hc with hc | hc
    · rcases List.mem_append.1 hc with hc | hc
      · -- compose records are not package records
        unfold composeChanges at hc
        dsimp only at hc
        split at hc
        · rcases List.mem_singleton.1 hc with h
          cases h
        · cases hc
      · -- alias records are not package records
        unfold aliasChanges at hc
        rcases (mem_concatMap _ _ _).1 hc with ⟨osvs, _, hc2⟩
        rcases (mem_concatMap _ _ _).1 hc2 with ⟨vm, _, hc3⟩
        dsimp only at hc3
        split at hc3
        · rcases List.mem_singleton.1 hc3 with h
          cases h
        · cases hc3
    · unfold packageChanges at hc
      rcases (mem_concatMap _ _ _).1 hc with ⟨osvs, _, hc2⟩
      split at hc2
      · cases hc2
      · rcases (mem_concatMap _ _ _).1 hc2 with ⟨vsec, _, hc3⟩
        rcases (mem_concatMap _ _ _).1 hc3 with ⟨spk, _, hc4⟩
        rcases (mem_concatMap _ _ _).1 hc4 with ⟨pkv, _, hc5⟩
        split at hc5
        · split at hc5
          · rcases List.mem_singleton.1 hc5 with h
            injection h with _ _ _ hpk _ _
            subst hpk
            assumption
          · cases hc5
        · cases hc5
  · intro ct cv pt pvv h1 h2 h3
    unfold check_for_changes
    have hcomp : composeChanges ct pt = [] := by
      unfold composeChanges
      rw [if_neg h1]
    have halias : aliasChanges ct pt = [] := by
      unfold aliasChanges
      apply concatMap_eq_nil
      intro osvs hosvs
      apply concatMap_eq_nil
      intro vm hvm
      rw [if_neg (h2 osvs hosvs vm hvm)]
    have hpkg : packageChanges cv pvv = [] := by
      unfold packageChanges
      apply concatMap_eq_nil
      intro osvs hosvs
      by_cases hdcv : osvs.1 = "docker_compose_version"
      · rw [if_pos hdcv]
      · rw [if_neg hdcv]
        apply concatMap_eq_nil
        intro vsec hvsec
        apply concatMap_eq_nil
        intro spk hspk
        apply concatMap_eq_nil
        intro pkv hpkv
        by_cases hsig : significant_packages.contains pkv.1 = true
        · rw [if_pos hsig]
          rw [if_neg (by
            intro hcon
            exact hcon (h3 osvs hosvs hdcv vsec hvsec spk hspk pkv hpkv hsig))]
        · rw [if_neg hsig]
    rw [hcomp, halias, hpkg]
    rfl

theorem spec_c5_witness :
    check_for_changes mW cv5 (some mW) (some pv5) = [] :=
  spec_c5.2 mW cv5 (some mW) (some pv5) (by decide) (by decide) (by decide)

/-- Claim C8 as stated is falsified: with no loadable baseline, the working
package-versions document holds a present value for `bash` (a package outside
the significant allow-list), yet the classifier reports no change record at
all for it — not every present value is reported as new. -/
theorem spec_c8_counterexample :
    pvGet cv5 "alpine" "3.19" "tools" "bash" = some "5.2.21" ∧
    check_for_changes ct8 cv5 none none = [] := ⟨rfl, rfl⟩

/-- Claim C8, amended: with a baseline that could not be loaded, the
classifier never errors (it is a total function of the `none` baseline) and
treats every key as having no prior value, so every present tracked value —
a nonempty compose version, every nonempty alias patch, and every stored
version of an allow-listed package — is reported as a new change record. -/
theorem spec_c8 (ct : Manifest) (cv : PkgVersions) :
    (ct.docker_compose_version ≠ "" →
      Change.compose "" ct.docker_compose_version ∈ check_for_changes ct cv none none) ∧
    (∀ osvs ∈ ct.targets, ∀ vm ∈ osvs.2, vm.2.alias_patch.getD "" ≠ "" →
      Change.alias_patch osvs.1 vm.1 "" (vm.2.alias_patch.getD "") ∈
        check_for_changes ct cv none none) ∧
    (∀ osvs ∈ cv, osvs.1 ≠ "docker_compose_version" →
      ∀ vsec ∈ osvs.2, ∀ spk ∈ vsec.2, ∀ pkv ∈ spk.2,
      significant_packages.contains pkv.1 = true →
      Change.package osvs.1 vsec.1 spk.1 pkv.1 none pkv.2 ∈
        check_for_changes ct cv none none) := by
  refine ⟨?_, ?_, ?_⟩
  · intro hdc
    unfold check_for_changes
    apply List.mem_append_left
    apply List.mem_append_left
    unfold composeChanges
    rw [if_pos ⟨hdc, hdc⟩]
    exact List.mem_singleton_self _
  · intro osvs hosvs vm hvm hpatch
    unfold check_for_changes
    apply List.mem_append_left
    apply List.mem_append_right
    unfold aliasChanges
    apply (mem_concatMap _ _ _).2
    refine ⟨osvs, hosvs, ?_⟩
    apply (mem_concatMap _ _ _).2
    refine ⟨vm, hvm, ?_⟩
    rw [if_pos ⟨hpatch, hpatch⟩]
    exact List.mem_singleton_self _
  · intro osvs hosvs hdcv vsec hvsec spk hspk pkv hpkv hsig
    unfold check_for_changes
    apply List.mem_append_right
    unfold packageChanges
    apply (mem_concatMap _ _ _).2
    refine ⟨osvs, hosvs, ?_⟩
    rw [if_neg hdcv]
    apply (mem_concatMap _ _ _).2
    refine ⟨vsec, hvsec, ?_⟩
    apply (mem_concatMap _ _ _).2
    refine ⟨spk, hspk, ?_⟩
    apply (mem_concatMap _ _ _).2
    refine ⟨pkv, hpkv, ?_⟩
    rw [if_pos hsig, if_pos (by simp [prevPkg])]
    exact List.mem_singleton_self _

theorem spec_c8_witness :
    Change.compose "" "2.29.0" ∈ check_for_changes mW pv1W none none ∧
    Change.alias_patch "alpine" "3.19" "" "3.19.8" ∈
      check_for_changes mW pv1W none none ∧
    Change.package "alpine" "3.19" "engine" "docker" none "26.1.0" ∈
      check_for_changes mW pv1W none none :=
  ⟨(spec_c8 mW pv1W).1 (by decide),
   (spec_c8 mW pv1W).2.1 ("alpine", [("3.19", metaAlp)]) (by decide)
     ("3.19", metaAlp) (by decide) (by decide),
   (spec_c8 mW pv1W).2.2 ("alpine", [("3.19", [("engine", [("docker", "26.1.0")]),
       ("tools", [("bash", "5.2.21")])])]) (by decide) (by decide)
     ("3.19", [("engine", [("docker", "26.1.0")]), ("tools", [("bash", "5.2.21")])])
     (by decide) ("engine", [("docker", "26.1.0")]) (by decide)
     ("docker", "26.1.0") (by decide) (by decide)⟩

/-- Claim C4: when a package's resolution returns null during a
reconciliation run, the version stored for it in the package-versions
document (in any bucket of its target) is unchanged after the run and no
package-update record is emitted for it. -/
theorem spec_c4 (env : Env) (now : String) (m m' : Manifest) (pv pv' : PkgVersions)
    (r : UpdateResult) (hwf : targetsWF m.targets)
    (h : update_manifest env now m pv = .ok (m', pv', r))
    {os : String} {vs : List (String × TargetMeta)} (hos : (os, vs) ∈ m.targets)
    {vk : String} {meta : TargetMeta} (hvk : (vk, meta) ∈ vs)
    {pkg : String}
    (hnull : dictGet pkg (fetch_all_package_versions env os meta.base
        (allPackages meta.packages)) = some none) :
    (∀ b, pvGet pv' os vk b pkg = pvGet pv os vk b pkg) ∧
    dictGet (os, vk, pkg) r.package_updates = none := by
  obtain ⟨ts', st, hp, hm', hpv, hr⟩ := update_manifest_inv h
  subst hpv
  subst hr
  obtain ⟨s1, s2⟩ := processTargets_skip hp hwf hos hvk hnull
  refine ⟨s1, ?_⟩
  show dictGet (os, vk, pkg) st.pkgUpd = none
  rw [s2]
  rfl

theorem spec_c4_witness :
    (∀ b, pvGet pv4W "alpine" "3.19" b "docker" = pvGet pvW4 "alpine" "3.19" b "docker") ∧
    dictGet ("alpine", "3.19", "docker") r4W.package_updates = none :=
  @spec_c4 envW4 "T1" mW m4W pvW4 pv4W r4W (by decide) rfl
    "alpine" [("3.19", metaAlp)] (by decide) "3.19" metaAlp (by decide) "docker" rfl

/-- Claim C3: a second reconciliation run over the documents produced by a
first run, against the same (pure) version sources, records no alias and no
package updates, reports "no updates", leaves `metadata.last_updated`
untouched, and the saved (serialized) documents are byte-identical to the
first run's. -/
theorem spec_c3 (env : Env) (now1 now2 : String) (m m1 : Manifest)
    (pv pv1 : PkgVersions) (r1 : UpdateResult) (hwf : targetsWF m.targets)
    (h1 : update_manifest env now1 m pv = .ok (m1, pv1, r1)) :
    update_manifest env now2 m1 pv1 = .ok (m1, pv1, ⟨[], [], false⟩) ∧
    (∀ m2 pv2 r2, update_manifest env now2 m1 pv1 = .ok (m2, pv2, r2) →
      r2.alias_updates = [] ∧ r2.package_updates = [] ∧
      r2.manifest_version_bumped = false ∧
      dictGet "last_updated" m2.metadata = dictGet "last_updated" m1.metadata ∧
      save_json (manifestToJson m2) = save_json (manifestToJson m1) ∧
      save_json (pvToJson pv2) = save_json (pvToJson pv1)) := by
  obtain ⟨ts', st, hp, hm', hpv, hr⟩ := update_manifest_inv h1
  subst hpv
  have hstab := processTargets_stable hp hwf ⟨st.pv, [], []⟩ (fun os hmem vk => rfl)
  have hm1t : m1.targets = ts' := by rw [hm']
  have hrun2 : update_manifest env now2 m1 st.pv = .ok (m1, st.pv, ⟨[], [], false⟩) := by
    unfold update_manifest
    rw [hm1t]
    simp only [hstab]
    rw [← hm1t]
    rfl
  refine ⟨hrun2, ?_⟩
  intro m2 pv2 r2 h2
  rw [hrun2] at h2
  injection h2 with h3
  injection h3 with h4 h5
  injection h5 with h6 h7
  subst h4
  subst h6
  subst h7
  exact ⟨rfl, rfl, rfl, rfl, rfl, rfl⟩

theorem spec_c3_witness :
    update_manifest envW "T2" m1W pv1W = .ok (m1W, pv1W, ⟨[], [], false⟩) :=
  (spec_c3 envW "T1" "T2" mW m1W [] pv1W r1W (by decide) rfl).1

/-- Claim C1 as stated is falsified: a registry transport failure while
resolving the first target's base alias aborts the entire reconciliation run
(the exception from `fetch_latest_tag` is not caught inside
`update_manifest`), so the remaining targets are never processed. -/
theorem spec_c1_counterexample :
    update_manifest envC1 "T1" mW [] = .error "transport failure" := rfl

/-- Claim C1, amended: a `ResolutionError` from the container environment
while fetching a target's package versions is caught — all of that target's
packages resolve as null, the stored package versions are untouched, no
package update is recorded — and reconciliation continues over the remaining
targets and completes successfully (aliases are still processed); only a
registry transport failure during base-alias resolution aborts the run. -/
theorem spec_c1 (env : Env) (now : String) (m : Manifest) (pv : PkgVersions)
    (halias : ∀ osvs ∈ m.targets, ∀ vm ∈ osvs.2,
      ∃ latest, fetch_latest_tag env osvs.1 vm.2.base = .ok latest)
    (hfail : ∀ osvs ∈ m.targets, ∀ vm ∈ osvs.2,
      ∃ e0, env.runQuery osvs.1 vm.2.base (allPackages vm.2.packages) = .error e0) :
    ∃ m' pv' r, update_manifest env now m pv = .ok (m', pv', r) ∧
      r.package_updates = [] ∧
      (∀ os vk b p, pvGet pv' os vk b p = pvGet pv os vk b p) := by
  obtain ⟨ts', st', hp, hupd, hpv⟩ := processTargets_allFail ⟨pv, [], []⟩
    (fun osvs hm vm hvm => ⟨halias osvs hm vm hvm, hfail osvs hm vm hvm⟩)
  refine ⟨_, _, _, update_manifest_eq env now m pv hp, ?_, ?_⟩
  · show st'.pkgUpd = []
    rw [hupd]
  · intro os vk b p
    exact hpv os vk b p

theorem spec_c1_witness :
    ∃ m' pv' r, update_manifest envC1W "T1" mW pvW4 = .ok (m', pv', r) ∧
      r.package_updates = [] ∧
      (∀ os vk b p, pvGet pv' os vk b p = pvGet pvW4 os vk b p) :=
  spec_c1 envC1W "T1" mW pvW4
    (by
      intro osvs hm vm hvm
      have hos : osvs = ("alpine", [("3.19", metaAlp)]) ∨
          osvs = ("ubuntu", [("24.04", metaUb)]) := by
        simpa [mW] using hm
      rcases hos with rfl | rfl
      · have hv : vm = ("3.19", metaAlp) := by simpa using hvm
        subst hv
        exact ⟨"3.19", rfl⟩
      · have hv : vm = ("24.04", metaUb) := by simpa using hvm
        subst hv
        exact ⟨"24.04", rfl⟩)
    (by
      intro osvs hm vm hvm
      have hos : osvs = ("alpine", [("3.19", metaAlp)]) ∨
          osvs = ("ubuntu", [("24.04", metaUb)]) := by
        simpa [mW] using hm
      rcases hos with rfl | rfl
      · have hv : vm = ("3.19", metaAlp) := by simpa using hvm
        subst hv
        exact ⟨"boom", rfl⟩
      · have hv : vm = ("24.04", metaUb) := by simpa using hvm
        subst hv
        exact ⟨"boom", rfl⟩)

end ContainerOS
